import Mathlib

/-!
# go-scalar-api-reference: spec resolution, content serialization, page assembly

A shallow embedding of `scalar.go`.  Go `string`s are embedded as Lean `String`s
(inside a document a string may also be given by its bytes, for strings that are
not valid UTF-8), the `(string, error)` result pairs as pairs whose second
component is an `Option GoError` (`none` is Go's `nil` error), and the object
behind an `*Options` pointer is passed in and handed back explicitly.  The collaborators that live
outside `scalar.go` (`fetchContentFromURL`, `ensureFileURL`, `readFileFromURL`,
`DefaultOptions`, `CustomThemeCSS`, the JSON encoding of the `Options` struct) are
parameters of the development, collected in `Env`.
-/

namespace Scalar

/-! ## Data model -/

/-- Go `error` value, identified by the text `Error()` returns. -/
structure GoError where
  msg : String
deriving DecidableEq, Repr

/-- Values an `interface{}` slot inside a document can hold: untyped `nil`,
`bool`, integers, a `string` that is valid UTF-8 (`str`, by its text) or not
(`rawStr`, by its bytes), `[]interface{}` (`slice`, or `nilSlice` when nil),
`map[string]interface{}` (`map`, as its list of entries, or `nilMap` when nil),
and `chan`, standing for the Go kinds `encoding/json` rejects (channels,
functions, complex numbers).  Floating-point numbers are not embedded. -/
inductive Item where
  | nil
  | bool (b : Bool)
  | int (n : Int)
  | str (s : String)
  | rawStr (bs : List Nat)
  | slice (xs : List Item)
  | nilSlice
  | map (m : List (String × Item))
  | nilMap
  | chan

/-- Entries of a non-nil Go `map[string]interface{}`. -/
abbrev Document := List (String × Item)

/-- Dynamic values `Options.SpecContent` can hold besides functions and the nil
map: untyped `nil`, `bool`, integers, `string` (texts are Lean `String`s, as
everywhere at this level), `[]interface{}`, a non-nil `map[string]interface{}`,
and `chan`, standing for every other Go kind. -/
inductive Value where
  | nil
  | bool (b : Bool)
  | int (n : Int)
  | str (s : String)
  | slice (xs : List Item)
  | map (m : Document)
  | chan

/-- Dynamic value held by `Options.SpecContent` (`interface{}`): a
`func() map[string]interface{}` (`func`, by the map its call returns), a nil
`map[string]interface{}` (`nilMap`), or any other value; `val Value.nil` is the
nil interface. -/
inductive Any where
  | func (f : Unit → Document)
  | val (v : Value)
  | nilMap

/-- Go's `x == nil` for an interface value. -/
def Any.isNil : Any → Bool
  | .val .nil => true
  | _ => false

/-- The fields of `Options` that `scalar.go` reads or writes; `Passthrough`
stands for the remaining display options of the struct. -/
structure Options where
  SpecURL : String := ""
  SpecContent : Any := .val .nil
  CDN : String := ""
  Theme : String := ""
  CustomCss : String := ""
  PageTitle : String := ""
  Passthrough : List (String × Value) := []

/-- Go `[]byte` holding the text `text`; `string(b)` is `b.text`. -/
structure Bytes where
  text : String
deriving DecidableEq, Repr

/-- Calls made to the collaborators, in the order they happen. -/
inductive Call where
  | fetchContentFromURL (url : String)
  | ensureFileURL (path : String)
  | readFileFromURL (url : String)
deriving DecidableEq, Repr

/-- Outside world: the collaborators' own state and the log of calls made. -/
structure World (σ : Type) where
  state : σ
  calls : List Call
deriving DecidableEq

/-- Collaborators and constants of the package that `scalar.go` uses but does
not define, with the signatures their uses show: the fetched `content` is stored
in `SpecContent` as it is and later read by the string case, the file reader's
result goes through `string(content)`, and both path functions return an
`error`.  Each collaborator may read and change its own state. -/
structure Env (σ : Type) where
  fetchContentFromURL : String → σ → Except GoError String × σ
  ensureFileURL : String → σ → Except GoError String × σ
  readFileFromURL : String → σ → Except GoError Bytes × σ
  DefaultOptions : Options → Options
  CustomThemeCSS : String
  marshalOptions : Options → Except GoError String

/-! ## Standard-library functions used by `scalar.go` -/

/-- Go `strings.HasPrefix`. -/
def HasPrefix (s pre : String) : Bool :=
  pre.data.isPrefixOf s.data

/-- Scan of Go `strings.Replace` with `n < 0` for a non-empty `old`: the leftmost
non-overlapping occurrences of `old` are replaced by `new`, left to right;
`skip` counts the characters of the current occurrence still to be passed. -/
def replaceAllChars (old new : List Char) : Nat → List Char → List Char
  | _, [] => []
  | skip + 1, _ :: cs => replaceAllChars old new skip cs
  | 0, c :: cs =>
    if old.isPrefixOf (c :: cs) then
      new ++ replaceAllChars old new (old.length - 1) cs
    else
      c :: replaceAllChars old new 0 cs

/-- Go `strings.ReplaceAll(s, old, new)`.  For an empty `old`, `new` is inserted
before every character and at the end. -/
def ReplaceAll (s old new : String) : String :=
  if old = new then s
  else if old.data = [] then ⟨new.data ++ s.data.flatMap (fun c => c :: new.data)⟩
  else ⟨replaceAllChars old.data new.data 0 s.data⟩

/-- Go `fmt.Errorf` with a format that has no verbs. -/
def Errorf (format : String) : GoError := ⟨format⟩

/-! ## `encoding/json`: `json.Marshal` on documents -/

/-- Digit `hex[n]` of `encoding/json`, `hex = "0123456789abcdef"`. -/
def hexDigit (n : Nat) : Char :=
  match n with
  | 0 => '0' | 1 => '1' | 2 => '2' | 3 => '3' | 4 => '4' | 5 => '5' | 6 => '6' | 7 => '7'
  | 8 => '8' | 9 => '9' | 10 => 'a' | 11 => 'b' | 12 => 'c' | 13 => 'd' | 14 => 'e' | _ => 'f'

/-- One character of a string as `encoding/json` writes it with HTML escaping on:
quote and backslash get a backslash, the control characters their short escape or
`\u00XX`, the characters `<`, `>`, `&` their `\u00XX` form, and U+2028, U+2029
their `\u202X` form. -/
def escapeChar (c : Char) : List Char :=
  if c = '"' then ['\\', '"']
  else if c = '\\' then ['\\', '\\']
  else if c = '\x08' then ['\\', 'b']
  else if c = '\x0c' then ['\\', 'f']
  else if c = '\n' then ['\\', 'n']
  else if c = '\r' then ['\\', 'r']
  else if c = '\t' then ['\\', 't']
  else if c.toNat < 0x20 ∨ c = '<' ∨ c = '>' ∨ c = '&' then
    ['\\', 'u', '0', '0', hexDigit (c.toNat / 16), hexDigit (c.toNat % 16)]
  else if c.toNat = 0x2028 ∨ c.toNat = 0x2029 then
    ['\\', 'u', '2', '0', '2', hexDigit (c.toNat % 16)]
  else [c]

/-- Quoted JSON string as `encoding/json` writes it (`appendString`). -/
def appendString (s : String) : List Char :=
  '"' :: (s.data.flatMap escapeChar ++ ['"'])

/-- Width in bytes that the lead byte `s0` (from `c2` to `f4`) announces, as the
table `first` of Go's `unicode/utf8` has it. -/
def leadSize (s0 : Nat) : Nat :=
  if s0 < 0xE0 then 2 else if s0 < 0xF0 then 3 else 4

/-- Lowest second byte accepted after the lead byte `s0` (`acceptRanges`). -/
def acceptLo (s0 : Nat) : Nat :=
  if s0 = 0xE0 then 0xA0 else if s0 = 0xF0 then 0x90 else 0x80

/-- Highest second byte accepted after the lead byte `s0` (`acceptRanges`). -/
def acceptHi (s0 : Nat) : Nat :=
  if s0 = 0xED then 0x9F else if s0 = 0xF4 then 0x8F else 0xBF

/-- Go `utf8.DecodeRuneInString` on the bytes of a string: the rune and its width
in bytes.  An empty input gives `RuneError` (U+FFFD) with width 0, an invalid or
cut-off encoding gives `RuneError` with width 1. -/
def decodeRune (s : List Nat) : Nat × Nat :=
  match s with
  | [] => (0xFFFD, 0)
  | s0 :: rest =>
    if s0 < 0x80 then (s0, 1)
    else if s0 < 0xC2 ∨ 0xF4 < s0 then (0xFFFD, 1)
    else if rest.length + 1 < leadSize s0 then (0xFFFD, 1)
    else
      match rest with
      | [] => (0xFFFD, 1)
      | s1 :: rest1 =>
        if s1 < acceptLo s0 ∨ acceptHi s0 < s1 then (0xFFFD, 1)
        else if leadSize s0 ≤ 2 then (s0 % 32 * 64 + s1 % 64, 2)
        else
          match rest1 with
          | [] => (0xFFFD, 1)
          | s2 :: rest2 =>
            if s2 < 0x80 ∨ 0xBF < s2 then (0xFFFD, 1)
            else if leadSize s0 ≤ 3 then (s0 % 16 * 4096 + s1 % 64 * 64 + s2 % 64, 3)
            else
              match rest2 with
              | [] => (0xFFFD, 1)
              | s3 :: _ =>
                if s3 < 0x80 ∨ 0xBF < s3 then (0xFFFD, 1)
                else (s0 % 8 * 262144 + s1 % 64 * 4096 + s2 % 64 * 64 + s3 % 64, 4)

/-- Body of a JSON string as `encoding/json` writes it from the bytes of a Go
string (the loop of `appendString`): every decoded rune as `escapeChar` writes
it, and `\ufffd` for every byte that does not start a valid encoding; `skip`
counts the bytes of the current rune still to be passed. -/
def appendBytes : Nat → List Nat → List Char
  | _, [] => []
  | skip + 1, _ :: bs => appendBytes skip bs
  | 0, b :: bs =>
    if (decodeRune (b :: bs)).1 = 0xFFFD ∧ (decodeRune (b :: bs)).2 = 1 then
      ['\\', 'u', 'f', 'f', 'f', 'd'] ++ appendBytes 0 bs
    else
      escapeChar (Char.ofNat (decodeRune (b :: bs)).1)
        ++ appendBytes ((decodeRune (b :: bs)).2 - 1) bs

/-- Quoted JSON string as `encoding/json` writes it from the bytes of a Go
string. -/
def appendRawString (bs : List Nat) : List Char :=
  '"' :: (appendBytes 0 bs ++ ['"'])

/-- Go `utf8.AppendRune`: the UTF-8 bytes of a character. -/
def runeBytes (c : Char) : List Nat :=
  if c.toNat < 0x80 then [c.toNat]
  else if c.toNat < 0x800 then [0xC0 + c.toNat / 64, 0x80 + c.toNat % 64]
  else if c.toNat < 0x10000 then
    [0xE0 + c.toNat / 4096, 0x80 + c.toNat / 64 % 64, 0x80 + c.toNat % 64]
  else
    [0xF0 + c.toNat / 262144, 0x80 + c.toNat / 4096 % 64, 0x80 + c.toNat / 64 % 64,
      0x80 + c.toNat % 64]

/-- Bytes of the Go string with the text `s`. -/
def stringBytes (s : String) : List Nat :=
  s.data.flatMap runeBytes

/-- Decimal digits of `n`, most significant first, pushed in front of `acc`
(`hexDigit` below ten is the decimal digit). -/
def decimalDigits : Nat → Nat → List Char → List Char
  | 0, _, acc => acc
  | fuel + 1, n, acc =>
    if n / 10 = 0 then hexDigit (n % 10) :: acc
    else decimalDigits fuel (n / 10) (hexDigit (n % 10) :: acc)

/-- Go `strconv.AppendInt(_, n, 10)`. -/
def appendInt : Int → List Char
  | .ofNat n => decimalDigits (n + 1) n []
  | .negSucc n => '-' :: decimalDigits (n + 2) (n + 1) []

/-- Go `a <= b` on strings, character by character; on valid UTF-8 the byte
order Go compares by is the order of the code points. -/
def charsLE : List Char → List Char → Bool
  | [], _ => true
  | _ :: _, [] => false
  | a :: as, b :: bs => a.toNat < b.toNat || (a.toNat = b.toNat && charsLE as bs)

/-- Inserts a map entry at its place in a list sorted by key. -/
def insertEntry {α : Type} (e : String × α) : List (String × α) → List (String × α)
  | [] => [e]
  | x :: xs => if charsLE e.1.data x.1.data = true then e :: x :: xs else x :: insertEntry e xs

/-- Map entries sorted by key, as `encoding/json` orders them. -/
def sortEntries {α : Type} : List (String × α) → List (String × α)
  | [] => []
  | e :: es => insertEntry e (sortEntries es)

/-- Comma-separated `"key":value` members of an object. -/
def joinEntries : List (String × List Char) → List Char
  | [] => []
  | [e] => appendString e.1 ++ ':' :: e.2
  | e :: es => appendString e.1 ++ ':' :: e.2 ++ ',' :: joinEntries es

/-- Comma-separated elements of an array. -/
def joinElems : List (List Char) → List Char
  | [] => []
  | [e] => e
  | e :: es => e ++ ',' :: joinElems es

mutual
/-- Compact text `encoding/json` writes for a value held in an `interface{}`; a
value of an unsupported kind is an error. -/
def marshalValue : Item → Except GoError (List Char)
  | .nil => .ok ['n', 'u', 'l', 'l']
  | .bool b => .ok (if b then ['t', 'r', 'u', 'e'] else ['f', 'a', 'l', 's', 'e'])
  | .int n => .ok (appendInt n)
  | .str s => .ok (appendString s)
  | .rawStr bs => .ok (appendRawString bs)
  | .slice xs =>
    match marshalElems xs with
    | .ok es => .ok ('[' :: (joinElems es ++ [']']))
    | .error e => .error e
  | .nilSlice => .ok ['n', 'u', 'l', 'l']
  | .map m =>
    match marshalEntries m with
    | .ok es => .ok ('{' :: (joinEntries (sortEntries es) ++ ['}']))
    | .error e => .error e
  | .nilMap => .ok ['n', 'u', 'l', 'l']
  | .chan => .error ⟨"json: unsupported type: chan int"⟩
/-- Encodings of the elements of a slice, in order. -/
def marshalElems : List Item → Except GoError (List (List Char))
  | [] => .ok []
  | x :: xs =>
    match marshalValue x, marshalElems xs with
    | .ok a, .ok as => .ok (a :: as)
    | .error e, _ => .error e
    | _, .error e => .error e
/-- Encodings of the entries of a map, each with its key. -/
def marshalEntries : List (String × Item) → Except GoError (List (String × List Char))
  | [] => .ok []
  | (k, x) :: xs =>
    match marshalValue x, marshalEntries xs with
    | .ok a, .ok as => .ok ((k, a) :: as)
    | .error e, _ => .error e
    | _, .error e => .error e
end

/-- Go `json.Marshal` on a non-nil `map[string]interface{}`. -/
def Marshal (m : Document) : Except GoError String :=
  match marshalValue (.map m) with
  | .ok cs => .ok ⟨cs⟩
  | .error e => .error e

/-- Go `json.Marshal` on a nil `map[string]interface{}`. -/
def MarshalNil : Except GoError String :=
  match marshalValue .nilMap with
  | .ok cs => .ok ⟨cs⟩
  | .error e => .error e

/-- Go `string(jsonData)` after `jsonData, _ := json.Marshal(...)`: the encoding,
or the empty string when the discarded error was non-nil (`jsonData` is nil). -/
def marshalText (r : Except GoError String) : String :=
  match r with
  | .ok s => s
  | .error _ => ""

/-! ## `scalar.go` -/

/-- Source `safeJSONConfiguration`: the options as JSON with double quotes turned
into HTML entities. -/
def safeJSONConfiguration {σ : Type} (env : Env σ) (options : Options) : String :=
  let jsonData := marshalText (env.marshalOptions options)
  let escapedJSON := ReplaceAll jsonData "\"" "&quot;"
  escapedJSON

/-- Source `specContentHandler`: the type switch on the spec content. -/
def specContentHandler (specContent : Any) : String :=
  match specContent with
  | .func spec =>
    let result := spec ()
    marshalText (Marshal result)
  | .val (.map spec) => marshalText (Marshal spec)
  | .nilMap => marshalText MarshalNil
  | .val (.str spec) => spec
  | _ => ""

/-- Outcome of a call on an `*Options`: the returned `(string, error)` pair, the
object behind the pointer after the call, and the world after the call. -/
structure Outcome (σ : Type) where
  text : String
  err : Option GoError
  options : Options
  world : World σ

/-- Call of `fetchContentFromURL`, logged. -/
def callFetch {σ : Type} (env : Env σ) (url : String) (w : World σ) :
    Except GoError String × World σ :=
  let r := env.fetchContentFromURL url w.state
  (r.1, ⟨r.2, w.calls ++ [Call.fetchContentFromURL url]⟩)

/-- Call of `ensureFileURL`, logged. -/
def callEnsure {σ : Type} (env : Env σ) (path : String) (w : World σ) :
    Except GoError String × World σ :=
  let r := env.ensureFileURL path w.state
  (r.1, ⟨r.2, w.calls ++ [Call.ensureFileURL path]⟩)

/-- Call of `readFileFromURL`, logged. -/
def callRead {σ : Type} (env : Env σ) (url : String) (w : World σ) :
    Except GoError Bytes × World σ :=
  let r := env.readFileFromURL url w.state
  (r.1, ⟨r.2, w.calls ++ [Call.readFileFromURL url]⟩)

/-- Source `GetScalarHTMLContent`. -/
def GetScalarHTMLContent {σ : Type} (env : Env σ) (options : Options) (w : World σ) :
    Outcome σ :=
  if options.SpecURL = "" ∧ options.SpecContent.isNil = true then
    ⟨"", some (Errorf "specURL or specContent must be provided"), options, w⟩
  else if options.SpecContent.isNil = true ∧ options.SpecURL ≠ "" then
    if HasPrefix options.SpecURL "http" = true then
      match callFetch env options.SpecURL w with
      | (.error err, w1) => ⟨"", some err, options, w1⟩
      | (.ok content, w1) =>
        let options := { options with SpecContent := .val (.str content) }
        ⟨specContentHandler options.SpecContent, none, options, w1⟩
    else
      match callEnsure env options.SpecURL w with
      | (.error err, w1) => ⟨"", some err, options, w1⟩
      | (.ok urlPath, w1) =>
        match callRead env urlPath w1 with
        | (.error err, w2) => ⟨"", some err, options, w2⟩
        | (.ok content, w2) =>
          let options := { options with SpecContent := .val (.str content.text) }
          ⟨specContentHandler options.SpecContent, none, options, w2⟩
  else
    ⟨specContentHandler options.SpecContent, none, options, w⟩

/-- Source `GetScalarCDN`. -/
def GetScalarCDN (options : Options) : String :=
  "<script src=\"" ++ options.CDN ++ "\"></script>"

/-- Source `GetCustomCSS`. -/
def GetCustomCSS {σ : Type} (env : Env σ) (options : Options) : String :=
  if options.Theme ≠ "" then ""
  else
    let css := if options.CustomCss ≠ "" then options.CustomCss else env.CustomThemeCSS
    "<style>" ++ css ++ "</style>"

/-- Source `GetScalarScriptWithHTMLContent`. -/
def GetScalarScriptWithHTMLContent (config specContent : String) : String :=
  "<script id=\"api-reference\" type=\"application/json\" data-configuration=\"" ++ config
    ++ "\">" ++ specContent ++ "</script>"

/-- Outcome of `ApiReferenceHTML`: the returned pair, the caller's object behind
`optionsInput` after the call, and the world after the call. -/
structure RenderOutcome (σ : Type) where
  html : String
  err : Option GoError
  optionsInput : Options
  world : World σ

/-- Source `ApiReferenceHTML`: the spec is resolved on the copy that
`DefaultOptions(*optionsInput)` returns. -/
def ApiReferenceHTML {σ : Type} (env : Env σ) (optionsInput : Options) (w : World σ) :
    RenderOutcome σ :=
  let options := env.DefaultOptions optionsInput
  let r := GetScalarHTMLContent env options w
  match r.err with
  | some err => ⟨"", some err, optionsInput, r.world⟩
  | none =>
    let options := r.options
    let specContentHTML := r.text
    let pageTitle := if options.PageTitle ≠ "" then options.PageTitle else "Scalar API Reference"
    ⟨"\n    <!DOCTYPE html>\n    <html>\n      <head>\n        <title>" ++ pageTitle
      ++ "</title>\n        <meta charset=\"utf-8\" />\n        <meta name=\"viewport\" content=\"width=device-width, initial-scale=1\" />\n\t"
      ++ GetCustomCSS env options
      ++ "\n      </head>\n      <body>\n\t"
      ++ GetScalarScriptWithHTMLContent (safeJSONConfiguration env options) specContentHTML
      ++ "\n\t" ++ GetScalarCDN options
      ++ "\n      </body>\n    </html>\n  ",
      none, optionsInput, r.world⟩

/-! ## Reference definitions the code is compared with -/

mutual
/-- The value as JSON data: the entries of every map in it put in key order, and
a nil slice or nil map, which JSON has as `null`, turned into `nil`. -/
def normalize : Item → Item
  | .nil => .nil
  | .bool b => .bool b
  | .int n => .int n
  | .str s => .str s
  | .rawStr bs => .rawStr bs
  | .slice xs => .slice (normalizeElems xs)
  | .nilSlice => .nil
  | .map m => .map (sortEntries (normalizeEntries m))
  | .nilMap => .nil
  | .chan => .chan
/-- Elements of a slice, each normalized. -/
def normalizeElems : List Item → List Item
  | [] => []
  | x :: xs => normalize x :: normalizeElems xs
/-- Entries of a map, each value normalized, in the given order. -/
def normalizeEntries : List (String × Item) → List (String × Item)
  | [] => []
  | (k, x) :: m => (k, normalize x) :: normalizeEntries m
end

/-- JSON whitespace. -/
def isWhitespace (c : Char) : Bool :=
  c = ' ' ∨ c = '\t' ∨ c = '\n' ∨ c = '\r'

/-- Drops leading JSON whitespace. -/
def skipWhitespace : List Char → List Char
  | [] => []
  | c :: cs => if isWhitespace c = true then skipWhitespace cs else c :: cs

/-- Decimal digit test. -/
def isDigit (c : Char) : Bool :=
  48 ≤ c.toNat ∧ c.toNat ≤ 57

/-- Value of a hexadecimal digit, in either case. -/
def hexValue (c : Char) : Option Nat :=
  if 48 ≤ c.toNat ∧ c.toNat ≤ 57 then some (c.toNat - 48)
  else if 97 ≤ c.toNat ∧ c.toNat ≤ 102 then some (c.toNat - 87)
  else if 65 ≤ c.toNat ∧ c.toNat ≤ 70 then some (c.toNat - 55)
  else none

/-- Character named by the four hexadecimal digits of a `\u` escape; surrogate
halves are not accepted. -/
def unicodeEscape (a b c d : Char) : Option Char :=
  match hexValue a, hexValue b, hexValue c, hexValue d with
  | some x, some y, some z, some t =>
    let n := ((x * 16 + y) * 16 + z) * 16 + t
    if 0xd800 ≤ n ∧ n ≤ 0xdfff then none else some (Char.ofNat n)
  | _, _, _, _ => none

/-- Character named by a one-letter escape. -/
def simpleEscape (e : Char) : Option Char :=
  if e = '"' then some '"'
  else if e = '\\' then some '\\'
  else if e = '/' then some '/'
  else if e = 'b' then some '\x08'
  else if e = 'f' then some '\x0c'
  else if e = 'n' then some '\n'
  else if e = 'r' then some '\r'
  else if e = 't' then some '\t'
  else none

/-- Puts a character in front of a parsed string body. -/
def consChar (c : Char) (r : Option (List Char × List Char)) : Option (List Char × List Char) :=
  match r with
  | some (s, rest) => some (c :: s, rest)
  | none => none

/-- Reads a JSON string after its opening quote, up to and including the closing
quote: the characters it denotes and the input left. -/
def parseChars : List Char → Option (List Char × List Char)
  | [] => none
  | c :: rest =>
    if c = '"' then some ([], rest)
    else if c = '\\' then
      match rest with
      | [] => none
      | e :: rest1 =>
        if e = 'u' then
          match rest1 with
          | a :: b :: c :: d :: rest2 =>
            match unicodeEscape a b c d with
            | some ch => consChar ch (parseChars rest2)
            | none => none
          | _ => none
        else
          match simpleEscape e with
          | some ch => consChar ch (parseChars rest1)
          | none => none
    else if c.toNat < 0x20 then none
    else consChar c (parseChars rest)

/-- Splits off the leading decimal digits. -/
def takeDigits : List Char → List Char × List Char
  | [] => ([], [])
  | c :: cs =>
    if isDigit c = true then ((takeDigits cs).1.cons c, (takeDigits cs).2) else ([], c :: cs)

/-- Number denoted by a list of decimal digits. -/
def digitsValue (ds : List Char) : Nat :=
  ds.foldl (fun acc d => acc * 10 + (d.toNat - 48)) 0

/-- Reads a JSON integer without sign: `0`, or a non-zero digit followed by
digits. -/
def parseNat (cs : List Char) : Option (Nat × List Char) :=
  match takeDigits cs with
  | ([], _) => none
  | (d :: ds, rest) =>
    if d = '0' ∧ ds ≠ [] then none else some (digitsValue (d :: ds), rest)

/-- Reads a JSON integer: an optional minus sign and an unsigned integer. -/
def parseInt (cs : List Char) : Option (Int × List Char) :=
  match cs with
  | [] => none
  | c :: rest =>
    if c = '-' then
      match parseNat rest with
      | some (n, rest1) => some (-(n : Int), rest1)
      | none => none
    else
      match parseNat (c :: rest) with
      | some (n, rest1) => some ((n : Int), rest1)
      | none => none

/-- Reads one of the literals `null`, `true`, `false`. -/
def parseLiteral (cs : List Char) : Option (Item × List Char) :=
  if ['n', 'u', 'l', 'l'].isPrefixOf cs then some (.nil, cs.drop 4)
  else if ['t', 'r', 'u', 'e'].isPrefixOf cs then some (.bool true, cs.drop 4)
  else if ['f', 'a', 'l', 's', 'e'].isPrefixOf cs then some (.bool false, cs.drop 5)
  else none

mutual
/-- Reads one JSON value (numbers: integers only), leading whitespace allowed:
the value and the input left.  `fuel` bounds the nesting and the number of
elements read. -/
def parseValue : Nat → List Char → Option (Item × List Char)
  | 0, _ => none
  | fuel + 1, cs =>
    match skipWhitespace cs with
    | [] => none
    | c :: rest =>
      if c = '"' then
        match parseChars rest with
        | some (s, rest1) => some (.str ⟨s⟩, rest1)
        | none => none
      else if c = '[' then
        match skipWhitespace rest with
        | [] => none
        | d :: rest1 =>
          if d = ']' then some (.slice [], rest1)
          else
            match parseElems fuel (d :: rest1) with
            | some (xs, rest2) => some (.slice xs, rest2)
            | none => none
      else if c = '{' then
        match skipWhitespace rest with
        | [] => none
        | d :: rest1 =>
          if d = '}' then some (.map [], rest1)
          else
            match parseMembers fuel (d :: rest1) with
            | some (m, rest2) => some (.map m, rest2)
            | none => none
      else if c = '-' ∨ isDigit c = true then
        match parseInt (c :: rest) with
        | some (n, rest1) => some (.int n, rest1)
        | none => none
      else parseLiteral (c :: rest)
/-- Reads the elements of a non-empty array up to and including `]`. -/
def parseElems : Nat → List Char → Option (List Item × List Char)
  | 0, _ => none
  | fuel + 1, cs =>
    match parseValue fuel cs with
    | none => none
    | some (x, rest) =>
      match skipWhitespace rest with
      | [] => none
      | d :: rest1 =>
        if d = ',' then
          match parseElems fuel rest1 with
          | some (xs, rest2) => some (x :: xs, rest2)
          | none => none
        else if d = ']' then some ([x], rest1)
        else none
/-- Reads the members of a non-empty object up to and including `}`. -/
def parseMembers : Nat → List Char → Option (List (String × Item) × List Char)
  | 0, _ => none
  | fuel + 1, cs =>
    match skipWhitespace cs with
    | [] => none
    | q :: rest =>
      if q = '"' then
        match parseChars rest with
        | none => none
        | some (k, rest1) =>
          match skipWhitespace rest1 with
          | [] => none
          | d :: rest2 =>
            if d = ':' then
              match parseValue fuel rest2 with
              | none => none
              | some (x, rest3) =>
                match skipWhitespace rest3 with
                | [] => none
                | d1 :: rest4 =>
                  if d1 = ',' then
                    match parseMembers fuel rest4 with
                    | some (m, rest5) => some ((⟨k⟩, x) :: m, rest5)
                    | none => none
                  else if d1 = '}' then some ([(⟨k⟩, x)], rest4)
                  else none
            else none
      else none
end

/-- The text `j` with every double quote replaced by `&quot;` and every other
character kept, one character at a time. -/
def quotesToEntities (j : String) : String :=
  ⟨j.data.flatMap fun c => if c = '"' then ['&', 'q', 'u', 'o', 't', ';'] else [c]⟩

/-- The input left after a number does not go on with a digit. -/
def NoDigitAhead (rest : List Char) : Prop :=
  ∀ c tl, rest = c :: tl → isDigit c = false

/-- The text `e` reads back as the value `v`: it starts with a character that is
neither whitespace nor a closing bracket, and `parseValue` with fuel at least its
length reads `v` from it and leaves what follows. -/
def ReadsAs (e : List Char) (v : Item) : Prop :=
  (∃ c tl, e = c :: tl ∧ isWhitespace c = false ∧ c ≠ ']' ∧ c ≠ '}') ∧
  ∀ fuel rest, e.length ≤ fuel → NoDigitAhead rest →
    parseValue fuel (e ++ rest) = some (v, rest)

/-- Go `strings.HasSuffix`. -/
def HasSuffix (s suf : String) : Bool :=
  suf.data.reverse.isPrefixOf s.data.reverse

/-- Number of positions of `s` at which an occurrence of `pat` starts. -/
def countOccurrences (pat : List Char) : List Char → Nat
  | [] => if pat = [] then 1 else 0
  | c :: cs => (if pat.isPrefixOf (c :: cs) = true then 1 else 0) + countOccurrences pat cs

/-- Number of occurrences of the substring `substr` in `s`. -/
def occurrences (s substr : String) : Nat :=
  countOccurrences substr.data s.data

mutual
/-- The value is, or holds somewhere inside, a value of a kind `encoding/json`
rejects. -/
def holdsRejected : Item → Bool
  | .nil => false
  | .bool _ => false
  | .int _ => false
  | .str _ => false
  | .rawStr _ => false
  | .slice xs => elemsHoldRejected xs
  | .nilSlice => false
  | .map m => entriesHoldRejected m
  | .nilMap => false
  | .chan => true
/-- Some element of the slice holds a rejected value. -/
def elemsHoldRejected : List Item → Bool
  | [] => false
  | x :: xs => holdsRejected x || elemsHoldRejected xs
/-- Some entry of the map holds a rejected value. -/
def entriesHoldRejected : List (String × Item) → Bool
  | [] => false
  | (_, x) :: m => holdsRejected x || entriesHoldRejected m
end

mutual
/-- The value is, or holds somewhere inside, a string that is not valid UTF-8. -/
def holdsRaw : Item → Bool
  | .nil => false
  | .bool _ => false
  | .int _ => false
  | .str _ => false
  | .rawStr _ => true
  | .slice xs => elemsHoldRaw xs
  | .nilSlice => false
  | .map m => entriesHoldRaw m
  | .nilMap => false
  | .chan => false
/-- Some element of the slice holds a string that is not valid UTF-8. -/
def elemsHoldRaw : List Item → Bool
  | [] => false
  | x :: xs => holdsRaw x || elemsHoldRaw xs
/-- Some entry of the map holds a string that is not valid UTF-8. -/
def entriesHoldRaw : List (String × Item) → Bool
  | [] => false
  | (_, x) :: m => holdsRaw x || entriesHoldRaw m
end

/-! ## A concrete environment -/

/-- Collaborators over a call counter: one remote document, one local file. -/
def sampleEnv : Env Nat where
  fetchContentFromURL url n :=
    if url = "https://example.com/openapi.json" then (.ok "remote spec", n + 1)
    else (.error ⟨"unexpected status: 404"⟩, n + 1)
  ensureFileURL path n :=
    if HasPrefix path "/" = true then (.ok ("file://" ++ path), n + 1)
    else (.error ⟨"cannot resolve path"⟩, n + 1)
  readFileFromURL url n :=
    if url = "file:///srv/openapi.yaml" then (.ok ⟨"openapi: 3.1.0"⟩, n + 1)
    else (.error ⟨"no such file or directory"⟩, n + 1)
  DefaultOptions o :=
    if o.CDN = "" then { o with CDN := "https://cdn.jsdelivr.net/npm/@scalar/api-reference" } else o
  CustomThemeCSS := ":root \x7b --theme-color-1: #2a2f45; \x7d"
  marshalOptions o := .ok ⟨'{' :: (appendString "cdn" ++ ':' :: appendString o.CDN ++ ['}'])⟩

/-- World in which no collaborator has been called yet. -/
def freshWorld : World Nat := ⟨0, []⟩

/-- The sample collaborators with a JSON encoder that rejects the options. -/
def rejectingEnv : Env Nat :=
  { sampleEnv with
    marshalOptions := fun _ => .error ⟨"json: unsupported type: func() map[string]interface \x7b\x7d"⟩ }

/-- The minimal valid configuration: the spec content `"x"`, nothing else set. -/
def minimalOptions : Options := { SpecContent := .val (.str "x") }

/-! ## Theorems -/

theorem GetScalarHTMLContent_missing {σ : Type} (env : Env σ) (options : Options) (w : World σ)
    (hurl : options.SpecURL = "") (hnil : options.SpecContent = .val .nil) :
    GetScalarHTMLContent env options w
      = ⟨"", some (Errorf "specURL or specContent must be provided"), options, w⟩ := by
  simp [GetScalarHTMLContent, hurl, hnil, Any.isNil]

/-- C1: with an empty `SpecURL` and a nil `SpecContent`, `GetScalarHTMLContent`
returns the empty string and the error "specURL or specContent must be provided",
calls no collaborator (the world, log included, is unchanged) and leaves the
options as they were. -/
theorem missing_spec_source {σ : Type} (env : Env σ) (options : Options) (w : World σ)
    (hurl : options.SpecURL = "") (hnil : options.SpecContent = .val .nil) :
    (GetScalarHTMLContent env options w).text = "" ∧
    (GetScalarHTMLContent env options w).err
      = some ⟨"specURL or specContent must be provided"⟩ ∧
    (GetScalarHTMLContent env options w).world = w ∧
    (GetScalarHTMLContent env options w).options = options := by
  simp [GetScalarHTMLContent, hurl, hnil, Any.isNil, Errorf]

theorem missing_spec_source_witness :
    (GetScalarHTMLContent sampleEnv {} freshWorld).text = "" ∧
    (GetScalarHTMLContent sampleEnv {} freshWorld).err
      = some ⟨"specURL or specContent must be provided"⟩ ∧
    (GetScalarHTMLContent sampleEnv {} freshWorld).world = freshWorld ∧
    (GetScalarHTMLContent sampleEnv {} freshWorld).options = {} :=
  missing_spec_source sampleEnv {} freshWorld rfl rfl

/-- C2: when `SpecContent` is the string `s`, whatever `SpecURL` is,
`GetScalarHTMLContent` returns exactly `s` and a nil error. -/
theorem raw_text_passthrough {σ : Type} (env : Env σ) (options : Options) (w : World σ)
    (s : String) (hs : options.SpecContent = .val (.str s)) :
    (GetScalarHTMLContent env options w).text = s ∧
    (GetScalarHTMLContent env options w).err = none := by
  simp [GetScalarHTMLContent, hs, Any.isNil, specContentHandler]

theorem raw_text_passthrough_witness :
    (GetScalarHTMLContent sampleEnv { SpecContent := .val (.str "test content") }
      freshWorld).text = "test content" ∧
    (GetScalarHTMLContent sampleEnv { SpecContent := .val (.str "test content") }
      freshWorld).err = none :=
  raw_text_passthrough sampleEnv { SpecContent := .val (.str "test content") } freshWorld
    "test content" rfl

/-- C3: a function `f` returning a map and the map `f()` are handled alike:
`specContentHandler` gives the same text, and `GetScalarHTMLContent` the same text
with a nil error; the function returning the map with the one entry
`"test": "value"` yields that map's JSON text. -/
theorem func_equiv_map {σ : Type} (env : Env σ) (options : Options) (w : World σ)
    (f : Unit → Document) :
    specContentHandler (.func f) = specContentHandler (.val (.map (f ()))) ∧
    (GetScalarHTMLContent env { options with SpecContent := .func f } w).text
      = (GetScalarHTMLContent env { options with SpecContent := .val (.map (f ())) } w).text ∧
    (GetScalarHTMLContent env { options with SpecContent := .func f } w).err = none ∧
    (GetScalarHTMLContent env { options with SpecContent := .val (.map (f ())) } w).err = none ∧
    specContentHandler (.func fun _ => [("test", .str "value")])
      = "\x7b\"test\":\"value\"\x7d" ∧
    specContentHandler (.val (.map [("test", .str "value")]))
      = "\x7b\"test\":\"value\"\x7d" := by
  refine ⟨rfl, ?_, ?_, ?_, by decide, by decide⟩ <;>
    simp [GetScalarHTMLContent, Any.isNil, specContentHandler]

/-- C5: when `SpecContent` is a value that is not nil, not a function returning a
map, not a map and not a string, `GetScalarHTMLContent` returns the empty string
and a nil error. -/
theorem unsupported_shape_is_empty {σ : Type} (env : Env σ) (options : Options)
    (w : World σ) (v : Value) (hv : options.SpecContent = .val v)
    (hnil : v ≠ .nil) (hmap : ∀ m, v ≠ .map m) (hstr : ∀ s, v ≠ .str s) :
    (GetScalarHTMLContent env options w).text = "" ∧
    (GetScalarHTMLContent env options w).err = none := by
  cases v with
  | nil => exact absurd rfl hnil
  | map m => exact absurd rfl (hmap m)
  | str s => exact absurd rfl (hstr s)
  | _ => simp [GetScalarHTMLContent, hv, Any.isNil, specContentHandler]

theorem unsupported_shape_is_empty_witness :
    (GetScalarHTMLContent sampleEnv { SpecContent := .val (.int 123) } freshWorld).text = "" ∧
    (GetScalarHTMLContent sampleEnv { SpecContent := .val (.int 123) } freshWorld).err = none :=
  unsupported_shape_is_empty sampleEnv { SpecContent := .val (.int 123) } freshWorld (.int 123)
    rfl (by simp) (by simp) (by simp)

/-! ### Quote escaping -/

theorem replaceAllChars_quote (new s : List Char) :
    replaceAllChars ['"'] new 0 s = s.flatMap fun c => if c = '"' then new else [c] := by
  induction s with
  | nil => rfl
  | cons c cs ih =>
    by_cases hc : c = '"'
    · subst hc
      simp [replaceAllChars, ih]
    · have hc2 : ¬ '"' = c := fun h => hc h.symm
      simp [replaceAllChars, ih, hc, hc2]

theorem ReplaceAll_quote (j : String) : ReplaceAll j "\"" "&quot;" = quotesToEntities j := by
  have h1 : ("\"" : String) ≠ "&quot;" := by decide
  have h2 : ("\"" : String).data ≠ [] := by decide
  simp only [ReplaceAll, if_neg h1, if_neg h2, quotesToEntities]
  exact congrArg String.mk (replaceAllChars_quote _ _)

theorem quote_not_mem_quotesToEntities (j : String) : '"' ∉ (quotesToEntities j).data := by
  simp only [quotesToEntities, List.mem_flatMap, not_exists, not_and]
  intro c _ hc
  by_cases h : c = '"'
  · rw [if_pos h] at hc
    revert hc
    decide
  · rw [if_neg h] at hc
    exact h (List.mem_singleton.mp hc).symm

/-- C6: the text `safeJSONConfiguration` returns holds no double-quote character,
and it is the JSON text of the options with every double quote replaced by
`&quot;` and no other character changed. -/
theorem safeJSONConfiguration_escapes_quotes {σ : Type} (env : Env σ) (options : Options) :
    '"' ∉ (safeJSONConfiguration env options).data ∧
    safeJSONConfiguration env options
      = quotesToEntities (marshalText (env.marshalOptions options)) := by
  have h : safeJSONConfiguration env options
      = quotesToEntities (marshalText (env.marshalOptions options)) := by
    simp only [safeJSONConfiguration]
    exact ReplaceAll_quote _
  exact ⟨h ▸ quote_not_mem_quotesToEntities _, h⟩

/-! ### Resolution: which collaborator is called -/

theorem GetScalarHTMLContent_nonnil {σ : Type} (env : Env σ) (options : Options) (w : World σ)
    (h : options.SpecContent.isNil = false) :
    GetScalarHTMLContent env options w
      = ⟨specContentHandler options.SpecContent, none, options, w⟩ := by
  simp [GetScalarHTMLContent, h]

theorem GetScalarHTMLContent_http {σ : Type} (env : Env σ) (options : Options) (w : World σ)
    (hnil : options.SpecContent = .val .nil) (hurl : options.SpecURL ≠ "")
    (hp : HasPrefix options.SpecURL "http" = true) :
    GetScalarHTMLContent env options w =
      match callFetch env options.SpecURL w with
      | (.error err, w1) => ⟨"", some err, options, w1⟩
      | (.ok content, w1) =>
        ⟨content, none, { options with SpecContent := .val (.str content) }, w1⟩ := by
  simp only [GetScalarHTMLContent, hnil, Any.isNil, hurl, hp, specContentHandler]
  simp
  exact fun h => absurd h hurl

theorem GetScalarHTMLContent_file {σ : Type} (env : Env σ) (options : Options) (w : World σ)
    (hnil : options.SpecContent = .val .nil) (hurl : options.SpecURL ≠ "")
    (hp : HasPrefix options.SpecURL "http" = false) :
    GetScalarHTMLContent env options w =
      match callEnsure env options.SpecURL w with
      | (.error err, w1) => ⟨"", some err, options, w1⟩
      | (.ok urlPath, w1) =>
        match callRead env urlPath w1 with
        | (.error err, w2) => ⟨"", some err, options, w2⟩
        | (.ok content, w2) =>
          ⟨content.text, none, { options with SpecContent := .val (.str content.text) }, w2⟩ := by
  simp only [GetScalarHTMLContent, hnil, Any.isNil, hurl, hp, specContentHandler]
  simp
  exact fun h => absurd h hurl

theorem GetScalarHTMLContent_fetch_error {σ : Type} (env : Env σ) (options : Options)
    (w : World σ) (hnil : options.SpecContent = .val .nil) (hurl : options.SpecURL ≠ "")
    (hp : HasPrefix options.SpecURL "http" = true) (e : GoError)
    (he : (env.fetchContentFromURL options.SpecURL w.state).1 = .error e) :
    GetScalarHTMLContent env options w
      = ⟨"", some e, options, ⟨(env.fetchContentFromURL options.SpecURL w.state).2,
          w.calls ++ [Call.fetchContentFromURL options.SpecURL]⟩⟩ := by
  rw [GetScalarHTMLContent_http env options w hnil hurl hp]
  simp only [callFetch, he]

theorem GetScalarHTMLContent_fetch_ok {σ : Type} (env : Env σ) (options : Options)
    (w : World σ) (hnil : options.SpecContent = .val .nil) (hurl : options.SpecURL ≠ "")
    (hp : HasPrefix options.SpecURL "http" = true) (content : String)
    (he : (env.fetchContentFromURL options.SpecURL w.state).1 = .ok content) :
    GetScalarHTMLContent env options w
      = ⟨content, none, { options with SpecContent := .val (.str content) },
          ⟨(env.fetchContentFromURL options.SpecURL w.state).2,
            w.calls ++ [Call.fetchContentFromURL options.SpecURL]⟩⟩ := by
  rw [GetScalarHTMLContent_http env options w hnil hurl hp]
  simp only [callFetch, he]

theorem GetScalarHTMLContent_ensure_error {σ : Type} (env : Env σ) (options : Options)
    (w : World σ) (hnil : options.SpecContent = .val .nil) (hurl : options.SpecURL ≠ "")
    (hp : HasPrefix options.SpecURL "http" = false) (e : GoError)
    (he : (env.ensureFileURL options.SpecURL w.state).1 = .error e) :
    GetScalarHTMLContent env options w
      = ⟨"", some e, options, ⟨(env.ensureFileURL options.SpecURL w.state).2,
          w.calls ++ [Call.ensureFileURL options.SpecURL]⟩⟩ := by
  rw [GetScalarHTMLContent_file env options w hnil hurl hp]
  simp only [callEnsure, he]

theorem GetScalarHTMLContent_read_error {σ : Type} (env : Env σ) (options : Options)
    (w : World σ) (hnil : options.SpecContent = .val .nil) (hurl : options.SpecURL ≠ "")
    (hp : HasPrefix options.SpecURL "http" = false) (urlPath : String) (e : GoError)
    (he : (env.ensureFileURL options.SpecURL w.state).1 = .ok urlPath)
    (hr : (env.readFileFromURL urlPath (env.ensureFileURL options.SpecURL w.state).2).1
      = .error e) :
    GetScalarHTMLContent env options w
      = ⟨"", some e, options,
          ⟨(env.readFileFromURL urlPath (env.ensureFileURL options.SpecURL w.state).2).2,
            (w.calls ++ [Call.ensureFileURL options.SpecURL])
              ++ [Call.readFileFromURL urlPath]⟩⟩ := by
  rw [GetScalarHTMLContent_file env options w hnil hurl hp]
  simp only [callEnsure, he, callRead, hr]

theorem GetScalarHTMLContent_read_ok {σ : Type} (env : Env σ) (options : Options)
    (w : World σ) (hnil : options.SpecContent = .val .nil) (hurl : options.SpecURL ≠ "")
    (hp : HasPrefix options.SpecURL "http" = false) (urlPath : String) (content : Bytes)
    (he : (env.ensureFileURL options.SpecURL w.state).1 = .ok urlPath)
    (hr : (env.readFileFromURL urlPath (env.ensureFileURL options.SpecURL w.state).2).1
      = .ok content) :
    GetScalarHTMLContent env options w
      = ⟨content.text, none, { options with SpecContent := .val (.str content.text) },
          ⟨(env.readFileFromURL urlPath (env.ensureFileURL options.SpecURL w.state).2).2,
            (w.calls ++ [Call.ensureFileURL options.SpecURL])
              ++ [Call.readFileFromURL urlPath]⟩⟩ := by
  rw [GetScalarHTMLContent_file env options w hnil hurl hp]
  simp only [callEnsure, he, callRead, hr]

/-- C7 as stated fails: `"httpd-api.yaml"` begins with neither `"http://"` nor
`"https://"`, yet the content fetcher is the one collaborator called for it. -/
theorem scheme_prefix_counterexample :
    HasPrefix "httpd-api.yaml" "http://" = false ∧
    HasPrefix "httpd-api.yaml" "https://" = false ∧
    (GetScalarHTMLContent sampleEnv { SpecURL := "httpd-api.yaml" } freshWorld).world.calls
      = [Call.fetchContentFromURL "httpd-api.yaml"] := by
  decide

/-- C7, amended: with a nil `SpecContent` and a non-empty `SpecURL`, the content
fetcher is called (once, on `SpecURL`, and nothing else) exactly when `SpecURL`
begins with the four characters "http"; otherwise `ensureFileURL` is called on
`SpecURL`, followed by `readFileFromURL` on its result when it succeeds, and the
fetcher is not called. -/
theorem fetch_iff_http_prefix {σ : Type} (env : Env σ) (options : Options) (w : World σ)
    (hnil : options.SpecContent = .val .nil) (hurl : options.SpecURL ≠ "") :
    (HasPrefix options.SpecURL "http" = true →
      (GetScalarHTMLContent env options w).world.calls
        = w.calls ++ [Call.fetchContentFromURL options.SpecURL]) ∧
    (HasPrefix options.SpecURL "http" = false →
      (∀ e, (env.ensureFileURL options.SpecURL w.state).1 = .error e →
        (GetScalarHTMLContent env options w).world.calls
          = w.calls ++ [Call.ensureFileURL options.SpecURL]) ∧
      (∀ urlPath, (env.ensureFileURL options.SpecURL w.state).1 = .ok urlPath →
        (GetScalarHTMLContent env options w).world.calls
          = w.calls ++ [Call.ensureFileURL options.SpecURL, Call.readFileFromURL urlPath])) := by
  refine ⟨fun hp => ?_, fun hp => ⟨fun e he => ?_, fun urlPath he => ?_⟩⟩
  · cases he : (env.fetchContentFromURL options.SpecURL w.state).1 with
    | error e => rw [GetScalarHTMLContent_fetch_error env options w hnil hurl hp e he]
    | ok c => rw [GetScalarHTMLContent_fetch_ok env options w hnil hurl hp c he]
  · rw [GetScalarHTMLContent_ensure_error env options w hnil hurl hp e he]
  · cases hr : (env.readFileFromURL urlPath (env.ensureFileURL options.SpecURL w.state).2).1 with
    | error e =>
      rw [GetScalarHTMLContent_read_error env options w hnil hurl hp urlPath e he hr]
      simp
    | ok c =>
      rw [GetScalarHTMLContent_read_ok env options w hnil hurl hp urlPath c he hr]
      simp

theorem fetch_iff_http_prefix_witness :
    (HasPrefix "/srv/openapi.yaml" "http" = true →
      (GetScalarHTMLContent sampleEnv { SpecURL := "/srv/openapi.yaml" } freshWorld).world.calls
        = freshWorld.calls ++ [Call.fetchContentFromURL "/srv/openapi.yaml"]) ∧
    (HasPrefix "/srv/openapi.yaml" "http" = false →
      (∀ e, (sampleEnv.ensureFileURL "/srv/openapi.yaml" freshWorld.state).1 = .error e →
        (GetScalarHTMLContent sampleEnv { SpecURL := "/srv/openapi.yaml" } freshWorld).world.calls
          = freshWorld.calls ++ [Call.ensureFileURL "/srv/openapi.yaml"]) ∧
      (∀ urlPath, (sampleEnv.ensureFileURL "/srv/openapi.yaml" freshWorld.state).1 = .ok urlPath →
        (GetScalarHTMLContent sampleEnv { SpecURL := "/srv/openapi.yaml" } freshWorld).world.calls
          = freshWorld.calls
            ++ [Call.ensureFileURL "/srv/openapi.yaml", Call.readFileFromURL urlPath])) :=
  fetch_iff_http_prefix sampleEnv { SpecURL := "/srv/openapi.yaml" } freshWorld rfl (by decide)

theorem resolution_failure {σ : Type} (env : Env σ) (options : Options) (w : World σ)
    (e : GoError) (hnil : options.SpecContent = .val .nil) (hurl : options.SpecURL ≠ "")
    (hfail :
      (HasPrefix options.SpecURL "http" = true ∧
        (env.fetchContentFromURL options.SpecURL w.state).1 = .error e) ∨
      (HasPrefix options.SpecURL "http" = false ∧
        (env.ensureFileURL options.SpecURL w.state).1 = .error e) ∨
      (HasPrefix options.SpecURL "http" = false ∧
        ∃ urlPath, (env.ensureFileURL options.SpecURL w.state).1 = .ok urlPath ∧
          (env.readFileFromURL urlPath (env.ensureFileURL options.SpecURL w.state).2).1
            = .error e)) :
    (GetScalarHTMLContent env options w).text = "" ∧
    (GetScalarHTMLContent env options w).err = some e ∧
    (GetScalarHTMLContent env options w).options = options := by
  rcases hfail with ⟨hp, he⟩ | ⟨hp, he⟩ | ⟨hp, urlPath, he, hr⟩
  · rw [GetScalarHTMLContent_fetch_error env options w hnil hurl hp e he]
    exact ⟨rfl, rfl, rfl⟩
  · rw [GetScalarHTMLContent_ensure_error env options w hnil hurl hp e he]
    exact ⟨rfl, rfl, rfl⟩
  · rw [GetScalarHTMLContent_read_error env options w hnil hurl hp urlPath e he hr]
    exact ⟨rfl, rfl, rfl⟩

/-- C9: with a nil `SpecContent` and a non-empty `SpecURL`, when the collaborator
the resolution calls (the fetcher, `ensureFileURL`, or `readFileFromURL` after
it) fails with `e`, `GetScalarHTMLContent` returns the empty string and exactly
`e` and leaves the options, `SpecContent` nil, as they were; and
`ApiReferenceHTML` on the same configuration, whose defaults leave `SpecURL` and
`SpecContent` alone, returns the empty string and the same `e`. -/
theorem failure_is_atomic {σ : Type} (env : Env σ) (options : Options) (w : World σ)
    (e : GoError) (hnil : options.SpecContent = .val .nil) (hurl : options.SpecURL ≠ "")
    (hdef : (env.DefaultOptions options).SpecURL = options.SpecURL ∧
      (env.DefaultOptions options).SpecContent = options.SpecContent)
    (hfail :
      (HasPrefix options.SpecURL "http" = true ∧
        (env.fetchContentFromURL options.SpecURL w.state).1 = .error e) ∨
      (HasPrefix options.SpecURL "http" = false ∧
        (env.ensureFileURL options.SpecURL w.state).1 = .error e) ∨
      (HasPrefix options.SpecURL "http" = false ∧
        ∃ urlPath, (env.ensureFileURL options.SpecURL w.state).1 = .ok urlPath ∧
          (env.readFileFromURL urlPath (env.ensureFileURL options.SpecURL w.state).2).1
            = .error e)) :
    (GetScalarHTMLContent env options w).text = "" ∧
    (GetScalarHTMLContent env options w).err = some e ∧
    (GetScalarHTMLContent env options w).options = options ∧
    (GetScalarHTMLContent env options w).options.SpecContent = .val .nil ∧
    (ApiReferenceHTML env options w).html = "" ∧
    (ApiReferenceHTML env options w).err = some e := by
  obtain ⟨h1, h2, h3⟩ := resolution_failure env options w e hnil hurl hfail
  have hnil2 : (env.DefaultOptions options).SpecContent = .val .nil := hdef.2.trans hnil
  have hurl2 : (env.DefaultOptions options).SpecURL ≠ "" := by rw [hdef.1]; exact hurl
  have hfail2 := hfail
  rw [← hdef.1] at hfail2
  obtain ⟨_, k2, _⟩ :=
    resolution_failure env (env.DefaultOptions options) w e hnil2 hurl2 hfail2
  refine ⟨h1, h2, h3, by rw [h3]; exact hnil, ?_, ?_⟩ <;>
    simp only [ApiReferenceHTML, k2]

theorem failure_is_atomic_witness :
    (GetScalarHTMLContent sampleEnv { SpecURL := "relative/openapi.yaml" } freshWorld).text = "" ∧
    (GetScalarHTMLContent sampleEnv { SpecURL := "relative/openapi.yaml" } freshWorld).err
      = some ⟨"cannot resolve path"⟩ ∧
    (GetScalarHTMLContent sampleEnv { SpecURL := "relative/openapi.yaml" } freshWorld).options
      = { SpecURL := "relative/openapi.yaml" } ∧
    (GetScalarHTMLContent sampleEnv { SpecURL := "relative/openapi.yaml" }
      freshWorld).options.SpecContent = .val .nil ∧
    (ApiReferenceHTML sampleEnv { SpecURL := "relative/openapi.yaml" } freshWorld).html = "" ∧
    (ApiReferenceHTML sampleEnv { SpecURL := "relative/openapi.yaml" } freshWorld).err
      = some ⟨"cannot resolve path"⟩ :=
  failure_is_atomic sampleEnv { SpecURL := "relative/openapi.yaml" } freshWorld
    ⟨"cannot resolve path"⟩ rfl (by decide) ⟨rfl, rfl⟩ (Or.inr (Or.inl ⟨by decide, rfl⟩))

/-- C10: when `GetScalarHTMLContent` succeeds on options whose `SpecContent` was
nil, the options afterwards hold the resolved payload as a string (what the
fetcher returned, or the text of the bytes the file reader returned), the
returned text is that payload, and a second call on the resulting options
returns the same text and a nil error and leaves options and world, call log
included, as they are. -/
theorem resolution_memoizes {σ : Type} (env : Env σ) (options : Options) (w : World σ)
    (hnil : options.SpecContent = .val .nil)
    (hok : (GetScalarHTMLContent env options w).err = none) :
    ∃ payload : String,
      (GetScalarHTMLContent env options w).options.SpecContent = .val (.str payload) ∧
      (GetScalarHTMLContent env options w).text = payload ∧
      (HasPrefix options.SpecURL "http" = true →
        (env.fetchContentFromURL options.SpecURL w.state).1 = .ok payload) ∧
      (HasPrefix options.SpecURL "http" = false →
        ∃ urlPath content, (env.ensureFileURL options.SpecURL w.state).1 = .ok urlPath ∧
          (env.readFileFromURL urlPath (env.ensureFileURL options.SpecURL w.state).2).1
            = .ok content ∧ payload = content.text) ∧
      GetScalarHTMLContent env (GetScalarHTMLContent env options w).options
          (GetScalarHTMLContent env options w).world
        = ⟨payload, none, (GetScalarHTMLContent env options w).options,
            (GetScalarHTMLContent env options w).world⟩ := by
  have hurl : options.SpecURL ≠ "" := by
    intro h
    rw [(GetScalarHTMLContent_missing env options w h hnil)] at hok
    exact absurd hok (by simp)
  cases hp : HasPrefix options.SpecURL "http"
  · cases he : (env.ensureFileURL options.SpecURL w.state).1 with
    | error err =>
      rw [GetScalarHTMLContent_ensure_error env options w hnil hurl hp err he] at hok
      exact absurd hok (by simp)
    | ok urlPath =>
      cases hr : (env.readFileFromURL urlPath (env.ensureFileURL options.SpecURL w.state).2).1 with
      | error err =>
        rw [GetScalarHTMLContent_read_error env options w hnil hurl hp urlPath err he hr] at hok
        exact absurd hok (by simp)
      | ok content =>
        rw [GetScalarHTMLContent_read_ok env options w hnil hurl hp urlPath content he hr]
        refine ⟨content.text, rfl, rfl, fun h => Bool.noConfusion h,
          fun _ => ⟨urlPath, content, rfl, hr, rfl⟩, ?_⟩
        exact GetScalarHTMLContent_nonnil env _ _ rfl
  · cases he : (env.fetchContentFromURL options.SpecURL w.state).1 with
    | error err =>
      rw [GetScalarHTMLContent_fetch_error env options w hnil hurl hp err he] at hok
      exact absurd hok (by simp)
    | ok content =>
      rw [GetScalarHTMLContent_fetch_ok env options w hnil hurl hp content he]
      refine ⟨content, rfl, rfl, fun _ => rfl, fun h => Bool.noConfusion h, ?_⟩
      exact GetScalarHTMLContent_nonnil env _ _ rfl

theorem resolution_memoizes_witness :
    ∃ payload : String,
      (GetScalarHTMLContent sampleEnv { SpecURL := "/srv/openapi.yaml" }
        freshWorld).options.SpecContent = .val (.str payload) ∧
      (GetScalarHTMLContent sampleEnv { SpecURL := "/srv/openapi.yaml" } freshWorld).text
        = payload ∧
      (HasPrefix "/srv/openapi.yaml" "http" = true →
        (sampleEnv.fetchContentFromURL "/srv/openapi.yaml" freshWorld.state).1 = .ok payload) ∧
      (HasPrefix "/srv/openapi.yaml" "http" = false →
        ∃ urlPath content,
          (sampleEnv.ensureFileURL "/srv/openapi.yaml" freshWorld.state).1 = .ok urlPath ∧
          (sampleEnv.readFileFromURL urlPath
            (sampleEnv.ensureFileURL "/srv/openapi.yaml" freshWorld.state).2).1
            = .ok content ∧ payload = content.text) ∧
      GetScalarHTMLContent sampleEnv
          (GetScalarHTMLContent sampleEnv { SpecURL := "/srv/openapi.yaml" } freshWorld).options
          (GetScalarHTMLContent sampleEnv { SpecURL := "/srv/openapi.yaml" } freshWorld).world
        = ⟨payload, none,
            (GetScalarHTMLContent sampleEnv { SpecURL := "/srv/openapi.yaml" } freshWorld).options,
            (GetScalarHTMLContent sampleEnv { SpecURL := "/srv/openapi.yaml" } freshWorld).world⟩ :=
  resolution_memoizes sampleEnv { SpecURL := "/srv/openapi.yaml" } freshWorld rfl rfl

/-! ### Reading back what `encoding/json` writes -/

theorem hexValue_hexDigit (k : Nat) (hk : k < 16) : hexValue (hexDigit k) = some k := by
  interval_cases k <;> rfl

theorem isDigit_hexDigit (k : Nat) (hk : k < 10) :
    isDigit (hexDigit k) = true ∧ (hexDigit k).toNat - 48 = k ∧ (k ≠ 0 → hexDigit k ≠ '0') := by
  interval_cases k <;> decide

theorem consChar_some (c : Char) (s rest : List Char) :
    consChar c (some (s, rest)) = some (c :: s, rest) := rfl

theorem unicodeEscape_byte (n : Nat) (hn : n < 256) :
    unicodeEscape '0' '0' (hexDigit (n / 16)) (hexDigit (n % 16)) = some (Char.ofNat n) := by
  have h1 : hexValue '0' = some 0 := rfl
  have h2 := hexValue_hexDigit (n / 16) (by omega)
  have h3 := hexValue_hexDigit (n % 16) (by omega)
  simp only [unicodeEscape, h1, h2, h3]
  have h4 : ((0 * 16 + 0) * 16 + n / 16) * 16 + n % 16 = n := by omega
  rw [h4, if_neg (by omega)]

theorem parseChars_cons (c : Char) (rest : List Char) :
    parseChars (c :: rest) =
      if c = '"' then some ([], rest)
      else if c = '\\' then
        match rest with
        | [] => none
        | e :: rest1 =>
          if e = 'u' then
            match rest1 with
            | a :: b :: c :: d :: rest2 =>
              match unicodeEscape a b c d with
              | some ch => consChar ch (parseChars rest2)
              | none => none
            | _ => none
          else
            match simpleEscape e with
            | some ch => consChar ch (parseChars rest1)
            | none => none
      else if c.toNat < 0x20 then none
      else consChar c (parseChars rest) := by
  rw [parseChars.eq_def]

theorem parseChars_escapeChar (c : Char) (tail : List Char) :
    parseChars (escapeChar c ++ tail) = consChar c (parseChars tail) := by
  unfold escapeChar
  split_ifs with h1 h2 h3 h4 h5 h6 h7 h8 h9
  · subst h1; simp [parseChars_cons, simpleEscape]
  · subst h2; simp [parseChars_cons, simpleEscape]
  · subst h3; simp [parseChars_cons, simpleEscape]
  · subst h4; simp [parseChars_cons, simpleEscape]
  · subst h5; simp [parseChars_cons, simpleEscape]
  · subst h6; simp [parseChars_cons, simpleEscape]
  · subst h7; simp [parseChars_cons, simpleEscape]
  · have hn : c.toNat < 256 := by
      rcases h8 with h | h | h | h
      · omega
      · subst h; decide
      · subst h; decide
      · subst h; decide
    have hu := unicodeEscape_byte c.toNat hn
    rw [Char.ofNat_toNat] at hu
    simp only [List.cons_append, List.nil_append]
    rw [parseChars_cons]
    simp [hu]
  · have hc : c = Char.ofNat 0x2028 ∨ c = Char.ofNat 0x2029 := by
      rcases h9 with h | h
      · left; rw [← h, Char.ofNat_toNat]
      · right; rw [← h, Char.ofNat_toNat]
    rcases hc with h | h <;> subst h <;>
      simp [parseChars_cons, unicodeEscape, hexValue, hexDigit]
  · simp only [List.cons_append, List.nil_append]
    rw [parseChars_cons, if_neg h1, if_neg h2, if_neg]
    intro hlt
    exact h8 (Or.inl hlt)

theorem parseChars_flatMap (s tail : List Char) :
    parseChars (s.flatMap escapeChar ++ '"' :: tail) = some (s, tail) := by
  induction s with
  | nil => simp [parseChars_cons]
  | cons c cs ih =>
    rw [List.flatMap_cons, List.append_assoc, parseChars_escapeChar, ih, consChar_some]

theorem digitsValue_snoc (ds : List Char) (d : Char) :
    digitsValue (ds ++ [d]) = digitsValue ds * 10 + (d.toNat - 48) := by
  simp [digitsValue, List.foldl_append]

theorem decimalDigits_spec (fuel : Nat) :
    ∀ (n : Nat) (acc : List Char), n < fuel →
      ∃ ds, decimalDigits fuel n acc = ds ++ acc ∧
        (∀ d ∈ ds, isDigit d = true) ∧ digitsValue ds = n ∧
        (n = 0 → ds = ['0']) ∧ (∃ d t, ds = d :: t ∧ (n ≠ 0 → d ≠ '0')) := by
  induction fuel with
  | zero => intro n acc h; omega
  | succ f ih =>
    intro n acc hn
    by_cases h0 : n / 10 = 0
    · have hlt : n < 10 := by omega
      have hmod : n % 10 = n := by omega
      obtain ⟨h1, h2, h3⟩ := isDigit_hexDigit n hlt
      refine ⟨[hexDigit n], ?_, ?_, ?_, ?_, ?_⟩
      · simp [decimalDigits, h0, hmod]
      · intro d hd
        rw [List.mem_singleton.mp hd]
        exact h1
      · simp [digitsValue, h2]
      · intro hz
        subst hz
        rfl
      · exact ⟨hexDigit n, [], rfl, h3⟩
    · obtain ⟨ds, e1, e2, e3, _, d, t, e5, e6⟩ :=
        ih (n / 10) (hexDigit (n % 10) :: acc) (by omega)
      obtain ⟨h1, h2, _⟩ := isDigit_hexDigit (n % 10) (by omega)
      refine ⟨ds ++ [hexDigit (n % 10)], ?_, ?_, ?_, ?_, ?_⟩
      · simp [decimalDigits, h0, e1]
      · intro x hx
        rcases List.mem_append.mp hx with hx | hx
        · exact e2 x hx
        · rw [List.mem_singleton.mp hx]
          exact h1
      · rw [digitsValue_snoc, e3, h2]
        omega
      · intro hz
        subst hz
        exact absurd rfl h0
      · exact ⟨d, t ++ [hexDigit (n % 10)], by rw [e5]; rfl, fun _ => e6 h0⟩

theorem takeDigits_append (ds rest : List Char) (hds : ∀ d ∈ ds, isDigit d = true)
    (hrest : NoDigitAhead rest) : takeDigits (ds ++ rest) = (ds, rest) := by
  induction ds with
  | nil =>
    cases rest with
    | nil => rfl
    | cons c tl => simp [takeDigits, hrest c tl rfl]
  | cons d ds ih =>
    have hd : isDigit d = true := hds d (List.mem_cons_self _ _)
    have ih2 := ih (fun x hx => hds x (List.mem_cons_of_mem _ hx))
    simp [takeDigits, hd, ih2]

theorem parseNat_decimalDigits (n : Nat) (rest : List Char) (hrest : NoDigitAhead rest) :
    parseNat (decimalDigits (n + 1) n [] ++ rest) = some (n, rest) := by
  obtain ⟨ds, e1, e2, e3, e4, d, t, e5, e6⟩ := decimalDigits_spec (n + 1) n [] (by omega)
  rw [List.append_nil] at e1
  rw [e1, parseNat, takeDigits_append ds rest e2 hrest]
  subst e5
  by_cases hz : n = 0
  · have := e4 hz
    simp only [List.cons.injEq] at this
    obtain ⟨hd, ht⟩ := this
    subst hd ht hz
    rfl
  · have hd := e6 hz
    simp [hd, e3]

theorem decimalDigits_head (n : Nat) :
    ∃ d t, decimalDigits (n + 1) n [] = d :: t ∧ isDigit d = true := by
  obtain ⟨ds, e1, e2, _, _, d, t, e5, _⟩ := decimalDigits_spec (n + 1) n [] (by omega)
  rw [List.append_nil] at e1
  exact ⟨d, t, e1.trans e5, e2 d (by rw [e5]; exact List.mem_cons_self _ _)⟩

theorem parseInt_appendInt (z : Int) (rest : List Char) (hrest : NoDigitAhead rest) :
    parseInt (appendInt z ++ rest) = some (z, rest) := by
  cases z with
  | ofNat n =>
    obtain ⟨d, t, e, hd⟩ := decimalDigits_head n
    have hne : d ≠ '-' := by
      intro h
      subst h
      exact absurd hd (by decide)
    have hp := parseNat_decimalDigits n rest hrest
    simp only [appendInt]
    rw [e] at hp ⊢
    simp only [List.cons_append] at hp ⊢
    simp only [parseInt, if_neg hne, hp]
    rfl
  | negSucc n =>
    have hp := parseNat_decimalDigits (n + 1) rest hrest
    simp only [appendInt, List.cons_append, parseInt, if_true, hp]
    rfl

theorem skipWhitespace_cons (c : Char) (cs : List Char) (h : isWhitespace c = false) :
    skipWhitespace (c :: cs) = c :: cs := by
  simp [skipWhitespace, h]

theorem parseValue_succ (fuel : Nat) (c : Char) (rest : List Char)
    (h : isWhitespace c = false) :
    parseValue (fuel + 1) (c :: rest) =
      if c = '"' then
        match parseChars rest with
        | some (s, rest1) => some (.str ⟨s⟩, rest1)
        | none => none
      else if c = '[' then
        match skipWhitespace rest with
        | [] => none
        | d :: rest1 =>
          if d = ']' then some (.slice [], rest1)
          else
            match parseElems fuel (d :: rest1) with
            | some (xs, rest2) => some (.slice xs, rest2)
            | none => none
      else if c = '{' then
        match skipWhitespace rest with
        | [] => none
        | d :: rest1 =>
          if d = '}' then some (.map [], rest1)
          else
            match parseMembers fuel (d :: rest1) with
            | some (m, rest2) => some (.map m, rest2)
            | none => none
      else if c = '-' ∨ isDigit c = true then
        match parseInt (c :: rest) with
        | some (n, rest1) => some (.int n, rest1)
        | none => none
      else parseLiteral (c :: rest) := by
  rw [parseValue, skipWhitespace_cons c rest h]

theorem readsAs_nil : ReadsAs ['n', 'u', 'l', 'l'] .nil := by
  refine ⟨⟨'n', _, rfl, by decide, by decide, by decide⟩, ?_⟩
  intro fuel rest hf _
  cases fuel with
  | zero => simp at hf
  | succ f =>
    simp only [List.cons_append, List.nil_append]
    rw [parseValue_succ f _ _ (by decide)]
    simp [parseLiteral, isDigit]

theorem readsAs_bool (b : Bool) :
    ReadsAs (if b then ['t', 'r', 'u', 'e'] else ['f', 'a', 'l', 's', 'e']) (.bool b) := by
  cases b
  · refine ⟨⟨'f', _, rfl, by decide, by decide, by decide⟩, ?_⟩
    intro fuel rest hf _
    cases fuel with
    | zero => simp at hf
    | succ f =>
      simp only [Bool.false_eq_true, if_false, List.cons_append, List.nil_append]
      rw [parseValue_succ f _ _ (by decide)]
      simp [parseLiteral, isDigit]
  · refine ⟨⟨'t', _, rfl, by decide, by decide, by decide⟩, ?_⟩
    intro fuel rest hf _
    cases fuel with
    | zero => simp at hf
    | succ f =>
      simp only [if_true, List.cons_append, List.nil_append]
      rw [parseValue_succ f _ _ (by decide)]
      simp [parseLiteral, isDigit]

theorem readsAs_str (s : String) : ReadsAs (appendString s) (.str s) := by
  refine ⟨⟨'"', _, rfl, by decide, by decide, by decide⟩, ?_⟩
  intro fuel rest hf _
  cases fuel with
  | zero => simp [appendString] at hf
  | succ f =>
    simp only [appendString, List.cons_append, List.append_assoc, List.nil_append]
    rw [parseValue_succ f _ _ (by decide), if_pos rfl, parseChars_flatMap]

theorem appendInt_head (z : Int) :
    ∃ d t, appendInt z = d :: t ∧ (d = '-' ∨ isDigit d = true) := by
  cases z with
  | ofNat n =>
    obtain ⟨d, t, e, hd⟩ := decimalDigits_head n
    exact ⟨d, t, e, Or.inr hd⟩
  | negSucc n => exact ⟨'-', _, rfl, Or.inl rfl⟩

theorem readsAs_int (z : Int) : ReadsAs (appendInt z) (.int z) := by
  obtain ⟨d, t, e, hd⟩ := appendInt_head z
  have hws : isWhitespace d = false := by
    rcases hd with h | h
    · subst h; decide
    · revert h; simp only [isDigit, isWhitespace]; intro h
      simp only [decide_eq_true_eq] at h
      simp only [decide_eq_false_iff_not, not_or]
      refine ⟨?_, ?_, ?_, ?_⟩ <;> intro hc <;> subst hc <;> revert h <;> decide
  have hq : d ≠ '"' ∧ d ≠ '[' ∧ d ≠ '{' ∧ d ≠ ']' ∧ d ≠ '}' := by
    rcases hd with h | h
    · subst h; decide
    · refine ⟨?_, ?_, ?_, ?_, ?_⟩ <;> intro hc <;> subst hc <;> revert h <;> decide
  refine ⟨⟨d, t, e, hws, hq.2.2.2.1, hq.2.2.2.2⟩, ?_⟩
  intro fuel rest hf hrest
  cases fuel with
  | zero => rw [e] at hf; simp at hf
  | succ f =>
    have hp := parseInt_appendInt z rest hrest
    rw [e] at hp ⊢
    simp only [List.cons_append] at hp ⊢
    rw [parseValue_succ f _ _ hws, if_neg hq.1, if_neg hq.2.1, if_neg hq.2.2.1, if_pos hd, hp]

theorem noDigitAhead_cons (c : Char) (tl : List Char) (h : isDigit c = false) :
    NoDigitAhead (c :: tl) := by
  intro d t hd
  cases hd
  exact h

theorem parseElems_succ (fuel : Nat) (cs : List Char) :
    parseElems (fuel + 1) cs =
      match parseValue fuel cs with
      | none => none
      | some (x, rest) =>
        match skipWhitespace rest with
        | [] => none
        | d :: rest1 =>
          if d = ',' then
            match parseElems fuel rest1 with
            | some (xs, rest2) => some (x :: xs, rest2)
            | none => none
          else if d = ']' then some ([x], rest1)
          else none := by
  rw [parseElems]

theorem parseElems_join (es : List (List Char)) (vs : List Item)
    (h : List.Forall₂ ReadsAs es vs) :
    es ≠ [] → ∀ fuel rest, (joinElems es).length + 1 ≤ fuel →
      parseElems fuel (joinElems es ++ ']' :: rest) = some (vs, rest) := by
  induction h with
  | nil => intro h; exact absurd rfl h
  | @cons e v es vs hev hrest ih =>
    intro _ fuel rest hf
    cases fuel with
    | zero => omega
    | succ f =>
      cases hrest with
      | nil =>
        have hlen : e.length ≤ f := by simpa [joinElems] using hf
        have hv := hev.2 f (']' :: rest) hlen (noDigitAhead_cons _ _ (by decide))
        simp only [joinElems]
        rw [parseElems_succ, hv]
        simp [skipWhitespace, isWhitespace]
      | @cons e2 v2 es2 vs2 hev2 hrest2 =>
        have hj : joinElems (e :: e2 :: es2) = e ++ ',' :: joinElems (e2 :: es2) := rfl
        rw [hj] at hf ⊢
        simp only [List.length_append, List.length_cons] at hf
        have hv := hev.2 f (',' :: (joinElems (e2 :: es2) ++ ']' :: rest)) (by omega)
          (noDigitAhead_cons _ _ (by decide))
        have ih2 := ih (by simp) f rest (by omega)
        simp only [List.append_assoc, List.cons_append]
        rw [parseElems_succ, hv]
        simp [skipWhitespace, isWhitespace, ih2]

theorem parseMembers_succ (fuel : Nat) (c : Char) (rest : List Char)
    (h : isWhitespace c = false) :
    parseMembers (fuel + 1) (c :: rest) =
      if c = '"' then
        match parseChars rest with
        | none => none
        | some (k, rest1) =>
          match skipWhitespace rest1 with
          | [] => none
          | d :: rest2 =>
            if d = ':' then
              match parseValue fuel rest2 with
              | none => none
              | some (x, rest3) =>
                match skipWhitespace rest3 with
                | [] => none
                | d1 :: rest4 =>
                  if d1 = ',' then
                    match parseMembers fuel rest4 with
                    | some (m, rest5) => some ((⟨k⟩, x) :: m, rest5)
                    | none => none
                  else if d1 = '}' then some ([(⟨k⟩, x)], rest4)
                  else none
            else none
      else none := by
  rw [parseMembers, skipWhitespace_cons c rest h]

theorem parseMembers_join (es : List (String × List Char)) (m : List (String × Item))
    (h : List.Forall₂ (fun e kv => e.1 = kv.1 ∧ ReadsAs e.2 kv.2) es m) :
    es ≠ [] → ∀ fuel rest, (joinEntries es).length + 1 ≤ fuel →
      parseMembers fuel (joinEntries es ++ '}' :: rest) = some (m, rest) := by
  induction h with
  | nil => intro h; exact absurd rfl h
  | @cons e kv es m hev hrest ih =>
    intro _ fuel rest hf
    obtain ⟨k, enc⟩ := e
    obtain ⟨k2, v⟩ := kv
    obtain ⟨hk, hread⟩ := hev
    simp only at hk hread
    subst hk
    cases fuel with
    | zero => omega
    | succ f =>
      cases hrest with
      | nil =>
        have hj : joinEntries [(k, enc)] = appendString k ++ ':' :: enc := rfl
        rw [hj] at hf ⊢
        simp only [List.length_append, List.length_cons] at hf
        have hv := hread.2 f ('}' :: rest) (by omega) (noDigitAhead_cons _ _ (by decide))
        simp only [appendString, List.cons_append, List.append_assoc, List.nil_append]
        rw [parseMembers_succ f _ _ (by decide), if_pos rfl, parseChars_flatMap]
        simp [skipWhitespace, isWhitespace, hv]
      | @cons e2 kv2 es2 m2 hev2 hrest2 =>
        have hj : joinEntries ((k, enc) :: e2 :: es2)
            = appendString k ++ ':' :: enc ++ ',' :: joinEntries (e2 :: es2) := rfl
        rw [hj] at hf ⊢
        simp only [List.length_append, List.length_cons] at hf
        have hv := hread.2 f (',' :: (joinEntries (e2 :: es2) ++ '}' :: rest)) (by omega)
          (noDigitAhead_cons _ _ (by decide))
        have ih2 := ih (by simp) f rest (by omega)
        simp only [appendString, List.cons_append, List.append_assoc, List.nil_append]
        rw [parseMembers_succ f _ _ (by decide), if_pos rfl, parseChars_flatMap]
        simp [skipWhitespace, isWhitespace, hv, ih2]

theorem joinElems_head (es : List (List Char)) (vs : List Item)
    (h : List.Forall₂ ReadsAs es vs) (hne : es ≠ []) :
    ∃ c tl, joinElems es = c :: tl ∧ isWhitespace c = false ∧ c ≠ ']' := by
  cases h with
  | nil => exact absurd rfl hne
  | @cons e v es2 vs2 hev hrest =>
    obtain ⟨⟨c, tl, he, hws, hb, _⟩, _⟩ := hev
    subst he
    cases es2 with
    | nil => exact ⟨c, tl, rfl, hws, hb⟩
    | cons e2 es3 => exact ⟨c, tl ++ ',' :: joinElems (e2 :: es3), rfl, hws, hb⟩

theorem readsAs_slice (es : List (List Char)) (vs : List Item)
    (h : List.Forall₂ ReadsAs es vs) :
    ReadsAs ('[' :: (joinElems es ++ [']'])) (.slice vs) := by
  refine ⟨⟨'[', _, rfl, by decide, by decide, by decide⟩, ?_⟩
  intro fuel rest hf _
  cases fuel with
  | zero => simp at hf
  | succ f =>
    simp only [List.length_cons, List.length_append, List.length_nil] at hf
    simp only [List.cons_append, List.append_assoc, List.nil_append]
    rw [parseValue_succ f _ _ (by decide), if_neg (by decide), if_pos rfl]
    by_cases hne : es = []
    · subst hne
      cases h
      simp [joinElems, skipWhitespace, isWhitespace]
    · obtain ⟨c, tl, hj, hws, hb⟩ := joinElems_head es vs h hne
      have hp := parseElems_join es vs h hne f rest (by omega)
      rw [hj] at hp ⊢
      simp only [List.cons_append] at hp ⊢
      rw [skipWhitespace_cons _ _ hws]
      simp only [if_neg hb, hp]

theorem joinEntries_head (es : List (String × List Char)) (hne : es ≠ []) :
    ∃ tl, joinEntries es = '"' :: tl := by
  cases es with
  | nil => exact absurd rfl hne
  | cons e es2 =>
    cases es2 with
    | nil => exact ⟨_, rfl⟩
    | cons e2 es3 => exact ⟨_, rfl⟩

theorem readsAs_map (es : List (String × List Char)) (m : List (String × Item))
    (h : List.Forall₂ (fun e kv => e.1 = kv.1 ∧ ReadsAs e.2 kv.2) es m) :
    ReadsAs ('{' :: (joinEntries es ++ ['}'])) (.map m) := by
  refine ⟨⟨'{', _, rfl, by decide, by decide, by decide⟩, ?_⟩
  intro fuel rest hf _
  cases fuel with
  | zero => simp at hf
  | succ f =>
    simp only [List.length_cons, List.length_append, List.length_nil] at hf
    simp only [List.cons_append, List.append_assoc, List.nil_append]
    rw [parseValue_succ f _ _ (by decide), if_neg (by decide), if_neg (by decide), if_pos rfl]
    by_cases hne : es = []
    · subst hne
      cases h
      simp [joinEntries, skipWhitespace, isWhitespace]
    · obtain ⟨tl, hj⟩ := joinEntries_head es hne
      have hp := parseMembers_join es m h hne f rest (by omega)
      rw [hj] at hp ⊢
      simp only [List.cons_append] at hp ⊢
      rw [skipWhitespace_cons _ _ (by decide)]
      simp only [if_neg (show ('"' : Char) ≠ '}' by decide), hp]

theorem insertEntry_forall₂ {α β : Type} (R : α → β → Prop) (e : String × α) (kv : String × β)
    (hk : e.1 = kv.1) (hr : R e.2 kv.2) (es : List (String × α)) (m : List (String × β))
    (h : List.Forall₂ (fun a b => a.1 = b.1 ∧ R a.2 b.2) es m) :
    List.Forall₂ (fun a b => a.1 = b.1 ∧ R a.2 b.2) (insertEntry e es) (insertEntry kv m) := by
  induction h with
  | nil => exact List.Forall₂.cons ⟨hk, hr⟩ List.Forall₂.nil
  | @cons a b as bs hab hrest ih =>
    simp only [insertEntry]
    rw [← hk, ← hab.1]
    split_ifs
    · exact List.Forall₂.cons ⟨hk, hr⟩ (List.Forall₂.cons hab hrest)
    · exact List.Forall₂.cons hab ih

theorem sortEntries_forall₂ {α β : Type} (R : α → β → Prop) (es : List (String × α))
    (m : List (String × β)) (h : List.Forall₂ (fun a b => a.1 = b.1 ∧ R a.2 b.2) es m) :
    List.Forall₂ (fun a b => a.1 = b.1 ∧ R a.2 b.2) (sortEntries es) (sortEntries m) := by
  induction h with
  | nil => exact List.Forall₂.nil
  | @cons a b as bs hab _ ih =>
    exact insertEntry_forall₂ R a b hab.1 hab.2 _ _ ih

mutual
theorem marshalValue_readsAs :
    ∀ (v : Item) (e : List Char), holdsRaw v = false → marshalValue v = .ok e →
      ReadsAs e (normalize v)
  | .nil, e, _, h => by
    simp only [marshalValue, Except.ok.injEq] at h
    subst h
    exact readsAs_nil
  | .bool b, e, _, h => by
    simp only [marshalValue, Except.ok.injEq] at h
    subst h
    exact readsAs_bool b
  | .int n, e, _, h => by
    simp only [marshalValue, Except.ok.injEq] at h
    subst h
    exact readsAs_int n
  | .str s, e, _, h => by
    simp only [marshalValue, Except.ok.injEq] at h
    subst h
    exact readsAs_str s
  | .rawStr bs, e, hr, _ => by
    simp [holdsRaw] at hr
  | .slice xs, e, hr, h => by
    simp only [marshalValue] at h
    simp only [holdsRaw] at hr
    cases hx : marshalElems xs with
    | error err => rw [hx] at h; cases h
    | ok es =>
      rw [hx] at h
      simp only [Except.ok.injEq] at h
      subst h
      exact readsAs_slice es _ (marshalElems_readsAs xs es hr hx)
  | .nilSlice, e, _, h => by
    simp only [marshalValue, Except.ok.injEq] at h
    subst h
    exact readsAs_nil
  | .map m, e, hr, h => by
    simp only [marshalValue] at h
    simp only [holdsRaw] at hr
    cases hx : marshalEntries m with
    | error err => rw [hx] at h; cases h
    | ok es =>
      rw [hx] at h
      simp only [Except.ok.injEq] at h
      subst h
      exact readsAs_map _ _
        (sortEntries_forall₂ ReadsAs es _ (marshalEntries_readsAs m es hr hx))
  | .nilMap, e, _, h => by
    simp only [marshalValue, Except.ok.injEq] at h
    subst h
    exact readsAs_nil
  | .chan, e, _, h => by
    simp only [marshalValue] at h
    cases h
theorem marshalElems_readsAs :
    ∀ (xs : List Item) (es : List (List Char)), elemsHoldRaw xs = false →
      marshalElems xs = .ok es → List.Forall₂ ReadsAs es (normalizeElems xs)
  | [], es, _, h => by
    simp only [marshalElems, Except.ok.injEq] at h
    subst h
    exact List.Forall₂.nil
  | x :: xs, es, hr, h => by
    simp only [marshalElems] at h
    simp only [elemsHoldRaw, Bool.or_eq_false_iff] at hr
    cases hx : marshalValue x with
    | error err => rw [hx] at h; simp at h
    | ok a =>
      cases hxs : marshalElems xs with
      | error err => rw [hx, hxs] at h; cases h
      | ok as =>
        rw [hx, hxs] at h
        simp only [Except.ok.injEq] at h
        subst h
        exact List.Forall₂.cons (marshalValue_readsAs x a hr.1 hx)
          (marshalElems_readsAs xs as hr.2 hxs)
theorem marshalEntries_readsAs :
    ∀ (m : List (String × Item)) (es : List (String × List Char)),
      entriesHoldRaw m = false → marshalEntries m = .ok es →
      List.Forall₂ (fun e kv => e.1 = kv.1 ∧ ReadsAs e.2 kv.2) es (normalizeEntries m)
  | [], es, _, h => by
    simp only [marshalEntries, Except.ok.injEq] at h
    subst h
    exact List.Forall₂.nil
  | (k, x) :: m, es, hr, h => by
    simp only [marshalEntries] at h
    simp only [entriesHoldRaw, Bool.or_eq_false_iff] at hr
    cases hx : marshalValue x with
    | error err => rw [hx] at h; simp at h
    | ok a =>
      cases hxs : marshalEntries m with
      | error err => rw [hx, hxs] at h; cases h
      | ok as =>
        rw [hx, hxs] at h
        simp only [Except.ok.injEq] at h
        subst h
        exact List.Forall₂.cons ⟨rfl, marshalValue_readsAs x a hr.1 hx⟩
          (marshalEntries_readsAs m as hr.2 hxs)
end

/-! ### Key order -/

theorem charsLE_total : ∀ a b : List Char, charsLE a b = false → charsLE b a = true
  | [], _, h => by simp [charsLE] at h
  | _ :: _, [], _ => by simp [charsLE]
  | x :: as, y :: bs, h => by
    simp only [charsLE, Bool.or_eq_false_iff, Bool.and_eq_false_iff, decide_eq_false_iff_not] at h
    simp only [charsLE, Bool.or_eq_true, Bool.and_eq_true, decide_eq_true_eq]
    obtain ⟨h1, h2⟩ := h
    by_cases hxy : x.toNat = y.toNat
    · rcases h2 with h2 | h2
      · exact absurd hxy h2
      · exact Or.inr ⟨hxy.symm, charsLE_total as bs h2⟩
    · exact Or.inl (by omega)

theorem insertEntry_head {α : Type} (e : String × α) (l : List (String × α)) :
    ∀ y ∈ (insertEntry e l).head?, y = e ∨ y ∈ l.head? := by
  cases l with
  | nil => intro y hy; exact Or.inl (by simpa [insertEntry] using hy.symm)
  | cons x xs =>
    intro y hy
    simp only [insertEntry] at hy
    split_ifs at hy
    · exact Or.inl (by simpa using hy.symm)
    · exact Or.inr (by simpa using hy)

theorem insertEntry_chain {α : Type} (e : String × α) (l : List (String × α))
    (h : List.Chain' (fun a b : String × α => charsLE a.1.data b.1.data = true) l) :
    List.Chain' (fun a b : String × α => charsLE a.1.data b.1.data = true) (insertEntry e l) := by
  induction l with
  | nil => exact List.chain'_singleton e
  | cons x xs ih =>
    simp only [insertEntry]
    split_ifs with hle
    · exact List.Chain'.cons hle h
    · rw [List.chain'_cons'] at h ⊢
      refine ⟨?_, ih h.2⟩
      intro y hy
      rcases insertEntry_head e xs y hy with hy | hy
      · subst hy
        exact charsLE_total _ _ (by simpa using hle)
      · exact h.1 y hy

theorem sortEntries_chain {α : Type} (l : List (String × α)) :
    List.Chain' (fun a b : String × α => charsLE a.1.data b.1.data = true) (sortEntries l) := by
  induction l with
  | nil => exact List.chain'_nil
  | cons e es ih => exact insertEntry_chain e _ ih

theorem sortEntries_of_chain {α : Type} (l : List (String × α))
    (h : List.Chain' (fun a b : String × α => charsLE a.1.data b.1.data = true) l) :
    sortEntries l = l := by
  induction l with
  | nil => rfl
  | cons e es ih =>
    rw [List.chain'_cons'] at h
    simp only [sortEntries, ih h.2]
    cases es with
    | nil => rfl
    | cons x xs =>
      have := h.1 x (by simp)
      simp [insertEntry, this]

theorem sortEntries_idem {α : Type} (l : List (String × α)) :
    sortEntries (sortEntries l) = sortEntries l :=
  sortEntries_of_chain _ (sortEntries_chain l)

/-! ### Normal forms -/

theorem normalizeEntries_insertEntry (e : String × Item) (l : List (String × Item)) :
    normalizeEntries (insertEntry e l) = insertEntry (e.1, normalize e.2) (normalizeEntries l) := by
  induction l with
  | nil => rfl
  | cons x xs ih =>
    obtain ⟨k, v⟩ := x
    obtain ⟨k2, v2⟩ := e
    simp only [insertEntry, normalizeEntries]
    split_ifs
    · rfl
    · simp only [normalizeEntries, ih]

theorem normalizeEntries_sortEntries (l : List (String × Item)) :
    normalizeEntries (sortEntries l) = sortEntries (normalizeEntries l) := by
  induction l with
  | nil => rfl
  | cons e es ih =>
    obtain ⟨k, v⟩ := e
    simp only [sortEntries, normalizeEntries, normalizeEntries_insertEntry, ih]

mutual
theorem normalize_idem : ∀ v : Item, normalize (normalize v) = normalize v
  | .nil => rfl
  | .bool _ => rfl
  | .int _ => rfl
  | .str _ => rfl
  | .rawStr _ => rfl
  | .nilSlice => rfl
  | .nilMap => rfl
  | .chan => rfl
  | .slice xs => by
    simp only [normalize, normalizeElems_idem xs]
  | .map m => by
    simp only [normalize, normalizeEntries_sortEntries, normalizeEntries_idem m, sortEntries_idem]
theorem normalizeElems_idem : ∀ xs : List Item, normalizeElems (normalizeElems xs) = normalizeElems xs
  | [] => rfl
  | x :: xs => by
    simp only [normalizeElems, normalize_idem x, normalizeElems_idem xs]
theorem normalizeEntries_idem :
    ∀ m : List (String × Item), normalizeEntries (normalizeEntries m) = normalizeEntries m
  | [] => rfl
  | (k, x) :: m => by
    simp only [normalizeEntries, normalize_idem x, normalizeEntries_idem m]
end

/-! ### Strings given by their bytes -/

theorem char_toNat_valid (c : Char) :
    c.toNat < 0xD800 ∨ (0xDFFF < c.toNat ∧ c.toNat < 0x110000) := by
  have h := c.valid
  simpa [UInt32.isValidChar, Nat.isValidChar, Char.toNat] using h

theorem decodeRune_two (s0 s1 : Nat) (rest : List Nat) (h0 : 0xC2 ≤ s0 ∧ s0 < 0xE0)
    (h1 : 0x80 ≤ s1 ∧ s1 ≤ 0xBF) :
    decodeRune (s0 :: s1 :: rest) = (s0 % 32 * 64 + s1 % 64, 2) := by
  have e1 : leadSize s0 = 2 := by simp only [leadSize]; rw [if_pos h0.2]
  have nE0 : s0 ≠ 0xE0 := by omega
  have nF0 : s0 ≠ 0xF0 := by omega
  have nED : s0 ≠ 0xED := by omega
  have nF4 : s0 ≠ 0xF4 := by omega
  have e2 : acceptLo s0 = 0x80 := by simp only [acceptLo, if_neg nE0, if_neg nF0]
  have e3 : acceptHi s0 = 0xBF := by simp only [acceptHi, if_neg nED, if_neg nF4]
  have a1 : ¬ s0 < 0x80 := by omega
  have a2 : ¬ (s0 < 0xC2 ∨ 0xF4 < s0) := by omega
  have a3 : ¬ (s1 :: rest).length + 1 < 2 := by simp only [List.length_cons]; omega
  have a4 : ¬ (s1 < 0x80 ∨ 0xBF < s1) := by omega
  simp only [decodeRune, e1, e2, e3, if_neg a1, if_neg a2, if_neg a3, if_neg a4,
    if_pos (Nat.le_refl 2)]

theorem decodeRune_three (s0 s1 s2 : Nat) (rest : List Nat) (h0 : 0xE0 ≤ s0 ∧ s0 < 0xF0)
    (h1 : acceptLo s0 ≤ s1 ∧ s1 ≤ acceptHi s0) (h2 : 0x80 ≤ s2 ∧ s2 ≤ 0xBF) :
    decodeRune (s0 :: s1 :: s2 :: rest) = (s0 % 16 * 4096 + s1 % 64 * 64 + s2 % 64, 3) := by
  have nlt : ¬ s0 < 0xE0 := by omega
  have e1 : leadSize s0 = 3 := by simp only [leadSize, if_neg nlt, if_pos h0.2]
  have a1 : ¬ s0 < 0x80 := by omega
  have a2 : ¬ (s0 < 0xC2 ∨ 0xF4 < s0) := by omega
  have a3 : ¬ (s1 :: s2 :: rest).length + 1 < 3 := by simp only [List.length_cons]; omega
  have a4 : ¬ (s1 < acceptLo s0 ∨ acceptHi s0 < s1) := by omega
  have a5 : ¬ 3 ≤ 2 := by omega
  have a6 : ¬ (s2 < 0x80 ∨ 0xBF < s2) := by omega
  simp only [decodeRune, e1, if_neg a1, if_neg a2, if_neg a3, if_neg a4, if_neg a5, if_neg a6,
    if_pos (Nat.le_refl 3)]

theorem decodeRune_four (s0 s1 s2 s3 : Nat) (rest : List Nat) (h0 : 0xF0 ≤ s0 ∧ s0 ≤ 0xF4)
    (h1 : acceptLo s0 ≤ s1 ∧ s1 ≤ acceptHi s0) (h2 : 0x80 ≤ s2 ∧ s2 ≤ 0xBF)
    (h3 : 0x80 ≤ s3 ∧ s3 ≤ 0xBF) :
    decodeRune (s0 :: s1 :: s2 :: s3 :: rest)
      = (s0 % 8 * 262144 + s1 % 64 * 4096 + s2 % 64 * 64 + s3 % 64, 4) := by
  have nlt : ¬ s0 < 0xE0 := by omega
  have nlt2 : ¬ s0 < 0xF0 := by omega
  have e1 : leadSize s0 = 4 := by simp only [leadSize, if_neg nlt, if_neg nlt2]
  have a1 : ¬ s0 < 0x80 := by omega
  have a2 : ¬ (s0 < 0xC2 ∨ 0xF4 < s0) := by omega
  have a3 : ¬ (s1 :: s2 :: s3 :: rest).length + 1 < 4 := by
    simp only [List.length_cons]; omega
  have a4 : ¬ (s1 < acceptLo s0 ∨ acceptHi s0 < s1) := by omega
  have a5 : ¬ 4 ≤ 2 := by omega
  have a6 : ¬ (s2 < 0x80 ∨ 0xBF < s2) := by omega
  have a7 : ¬ 4 ≤ 3 := by omega
  have a8 : ¬ (s3 < 0x80 ∨ 0xBF < s3) := by omega
  simp only [decodeRune, e1, if_neg a1, if_neg a2, if_neg a3, if_neg a4, if_neg a5, if_neg a6,
    if_neg a7, if_neg a8]

theorem decodeRune_runeBytes (c : Char) (rest : List Nat) :
    decodeRune (runeBytes c ++ rest) = (c.toNat, (runeBytes c).length) := by
  have hv := char_toNat_valid c
  unfold runeBytes
  split_ifs with h1 h2 h3
  · simp only [List.cons_append, List.nil_append, decodeRune, if_pos h1, List.length_cons,
      List.length_nil]
  · simp only [List.cons_append, List.nil_append, List.length_cons, List.length_nil]
    rw [decodeRune_two _ _ _ (by omega) (by omega)]
    refine Prod.ext ?_ rfl
    show _ = c.toNat
    omega
  · have hlo : acceptLo (0xE0 + c.toNat / 4096) ≤ 0x80 + c.toNat / 64 % 64 := by
      simp only [acceptLo]
      split_ifs <;> omega
    have hhi : 0x80 + c.toNat / 64 % 64 ≤ acceptHi (0xE0 + c.toNat / 4096) := by
      simp only [acceptHi]
      split_ifs <;> omega
    simp only [List.cons_append, List.nil_append, List.length_cons, List.length_nil]
    rw [decodeRune_three _ _ _ _ (by omega) ⟨hlo, hhi⟩ (by omega)]
    refine Prod.ext ?_ rfl
    show _ = c.toNat
    omega
  · have hlo : acceptLo (0xF0 + c.toNat / 262144) ≤ 0x80 + c.toNat / 4096 % 64 := by
      simp only [acceptLo]
      split_ifs <;> omega
    have hhi : 0x80 + c.toNat / 4096 % 64 ≤ acceptHi (0xF0 + c.toNat / 262144) := by
      simp only [acceptHi]
      split_ifs <;> omega
    simp only [List.cons_append, List.nil_append, List.length_cons, List.length_nil]
    rw [decodeRune_four _ _ _ _ _ (by omega) ⟨hlo, hhi⟩ (by omega) (by omega)]
    refine Prod.ext ?_ rfl
    show _ = c.toNat
    omega

theorem appendBytes_skip (l1 l2 : List Nat) :
    appendBytes l1.length (l1 ++ l2) = appendBytes 0 l2 := by
  induction l1 with
  | nil => rfl
  | cons b bs ih =>
    cases l2 with
    | nil =>
      simp only [List.length_cons, List.cons_append, appendBytes]
      exact ih
    | cons d ds =>
      simp only [List.length_cons, List.cons_append, appendBytes]
      exact ih

theorem runeBytes_cons (c : Char) : ∃ b tl, runeBytes c = b :: tl := by
  unfold runeBytes
  split_ifs <;> exact ⟨_, _, rfl⟩

theorem appendBytes_runeBytes (c : Char) (rest : List Nat) :
    appendBytes 0 (runeBytes c ++ rest) = escapeChar c ++ appendBytes 0 rest := by
  have hd := decodeRune_runeBytes c rest
  obtain ⟨b, tl, hb⟩ := runeBytes_cons c
  rw [hb] at hd ⊢
  simp only [List.cons_append, List.length_cons] at hd ⊢
  have hne : ¬ ((decodeRune (b :: (tl ++ rest))).1 = 0xFFFD ∧
      (decodeRune (b :: (tl ++ rest))).2 = 1) := by
    rw [hd]
    intro h
    have h2 : tl = [] := by
      have := h.2
      simp only [Nat.add_eq_right, List.length_eq_zero] at this
      exact this
    have hv1 : c.toNat = 0xFFFD := h.1
    subst h2
    have hl : (runeBytes c).length = 1 := by rw [hb]; rfl
    unfold runeBytes at hl
    split_ifs at hl with g1 g2 g3
    · omega
    · simp at hl
    · simp at hl
    · simp at hl
  rw [appendBytes, if_neg hne, hd]
  simp only [Nat.add_sub_cancel, Char.ofNat_toNat]
  rw [appendBytes_skip]

theorem appendBytes_stringBytes (s : List Char) :
    appendBytes 0 (s.flatMap runeBytes) = s.flatMap escapeChar := by
  induction s with
  | nil => rfl
  | cons c cs ih =>
    rw [List.flatMap_cons, List.flatMap_cons, appendBytes_runeBytes, ih]

theorem marshalValue_rawStr_stringBytes (s : String) :
    marshalValue (.rawStr (stringBytes s)) = marshalValue (.str s) := by
  simp only [marshalValue, appendRawString, appendString, stringBytes, appendBytes_stringBytes]

/-! ### The document case of `specContentHandler` -/

mutual
theorem marshalValue_accepted :
    ∀ v : Item, holdsRejected v = false → ∃ e, marshalValue v = .ok e
  | .nil, _ => ⟨_, rfl⟩
  | .bool _, _ => ⟨_, rfl⟩
  | .int _, _ => ⟨_, rfl⟩
  | .str _, _ => ⟨_, rfl⟩
  | .rawStr _, _ => ⟨_, rfl⟩
  | .nilSlice, _ => ⟨_, rfl⟩
  | .nilMap, _ => ⟨_, rfl⟩
  | .chan, h => by simp [holdsRejected] at h
  | .slice xs, h => by
    simp only [holdsRejected] at h
    obtain ⟨es, he⟩ := marshalElems_accepted xs h
    exact ⟨'[' :: (joinElems es ++ [']']), by simp only [marshalValue, he]⟩
  | .map m, h => by
    simp only [holdsRejected] at h
    obtain ⟨es, he⟩ := marshalEntries_accepted m h
    exact ⟨'{' :: (joinEntries (sortEntries es) ++ ['}']), by simp only [marshalValue, he]⟩
theorem marshalElems_accepted :
    ∀ xs : List Item, elemsHoldRejected xs = false → ∃ es, marshalElems xs = .ok es
  | [], _ => ⟨_, rfl⟩
  | x :: xs, h => by
    simp only [elemsHoldRejected, Bool.or_eq_false_iff] at h
    obtain ⟨a, ha⟩ := marshalValue_accepted x h.1
    obtain ⟨as, has⟩ := marshalElems_accepted xs h.2
    exact ⟨a :: as, by simp only [marshalElems, ha, has]⟩
theorem marshalEntries_accepted :
    ∀ m : List (String × Item), entriesHoldRejected m = false →
      ∃ es, marshalEntries m = .ok es
  | [], _ => ⟨_, rfl⟩
  | (k, x) :: m, h => by
    simp only [entriesHoldRejected, Bool.or_eq_false_iff] at h
    obtain ⟨a, ha⟩ := marshalValue_accepted x h.1
    obtain ⟨as, has⟩ := marshalEntries_accepted m h.2
    exact ⟨(k, a) :: as, by simp only [marshalEntries, ha, has]⟩
end

/-- C11: with a non-empty `Theme`, `GetCustomCSS` returns the empty string,
whatever `CustomCss` is; the theme "dark" yields the empty string. -/
theorem theme_takes_precedence {σ : Type} (env : Env σ) (options : Options)
    (h : options.Theme ≠ "") :
    GetCustomCSS env options = "" := by
  simp [GetCustomCSS, h]

theorem theme_takes_precedence_witness :
    GetCustomCSS sampleEnv { Theme := "dark", CustomCss := "body \x7b color: red; \x7d" } = "" :=
  theme_takes_precedence sampleEnv { Theme := "dark", CustomCss := "body \x7b color: red; \x7d" }
    (by decide)

/-- C12: with an empty `Theme`, `GetCustomCSS` returns `<style>`, then `CustomCss`
when it is non-empty and `CustomThemeCSS` otherwise, then `</style>`, the text
embedded as it is; the two test configurations give the expected blocks. -/
theorem style_block {σ : Type} (env : Env σ) (options : Options) (h : options.Theme = "") :
    GetCustomCSS env options
      = "<style>"
        ++ (if options.CustomCss ≠ "" then options.CustomCss else env.CustomThemeCSS)
        ++ "</style>" ∧
    GetCustomCSS env { CustomCss := "body \x7b color: red; \x7d" }
      = "<style>body \x7b color: red; \x7d</style>" ∧
    GetCustomCSS env {} = "<style>" ++ env.CustomThemeCSS ++ "</style>" := by
  refine ⟨?_, ?_, ?_⟩
  · simp [GetCustomCSS, h]
  · have hne : ("body \x7b color: red; \x7d" : String) ≠ "" := by decide
    have hth : ¬ (("" : String) ≠ "") := fun hc => hc rfl
    simp only [GetCustomCSS, if_pos hne, if_neg hth]
    rfl
  · simp [GetCustomCSS]

theorem style_block_witness :
    GetCustomCSS sampleEnv { CustomCss := "h1 \x7b margin: 0; \x7d" }
      = "<style>"
        ++ (if ({ CustomCss := "h1 \x7b margin: 0; \x7d" } : Options).CustomCss ≠ ""
            then ({ CustomCss := "h1 \x7b margin: 0; \x7d" } : Options).CustomCss
            else sampleEnv.CustomThemeCSS)
        ++ "</style>" ∧
    GetCustomCSS sampleEnv { CustomCss := "body \x7b color: red; \x7d" }
      = "<style>body \x7b color: red; \x7d</style>" ∧
    GetCustomCSS sampleEnv {} = "<style>" ++ sampleEnv.CustomThemeCSS ++ "</style>" :=
  style_block sampleEnv { CustomCss := "h1 \x7b margin: 0; \x7d" } rfl

/-- C13: `GetScalarCDN` returns `<script src="`, the `CDN` string as it is, and
`"></script>`; an empty `CDN` gives `<script src=""></script>`. -/
theorem cdn_script_tag (options : Options) :
    GetScalarCDN options = "<script src=\"" ++ options.CDN ++ "\"></script>" ∧
    (options.CDN = "" → GetScalarCDN options = "<script src=\"\"></script>") ∧
    GetScalarCDN { CDN := "https://cdn.example.com/scalar.js" }
      = "<script src=\"https://cdn.example.com/scalar.js\"></script>" := by
  refine ⟨rfl, ?_, by decide⟩
  intro h
  simp only [GetScalarCDN, h]
  decide

/-- C14: `GetScalarScriptWithHTMLContent` puts `config` into the
`data-configuration` attribute and `specContent` into the body of the fixed
script element, both as they are. -/
theorem script_with_content (config specContent : String) :
    GetScalarScriptWithHTMLContent config specContent
      = "<script id=\"api-reference\" type=\"application/json\" data-configuration=\""
        ++ config ++ "\">" ++ specContent ++ "</script>" ∧
    GetScalarScriptWithHTMLContent "config&quot;test" "content<>test"
      = "<script id=\"api-reference\" type=\"application/json\" data-configuration=\"config&quot;test\">content<>test</script>" :=
  ⟨rfl, by decide⟩

/-! ### Silent serialization failure -/

mutual
theorem marshalValue_rejected :
    ∀ v : Item, holdsRejected v = true → ∃ e, marshalValue v = .error e
  | .nil, h => by simp [holdsRejected] at h
  | .bool _, h => by simp [holdsRejected] at h
  | .int _, h => by simp [holdsRejected] at h
  | .str _, h => by simp [holdsRejected] at h
  | .rawStr _, h => by simp [holdsRejected] at h
  | .nilSlice, h => by simp [holdsRejected] at h
  | .nilMap, h => by simp [holdsRejected] at h
  | .chan, _ => ⟨_, rfl⟩
  | .slice xs, h => by
    simp only [holdsRejected] at h
    obtain ⟨e, he⟩ := marshalElems_rejected xs h
    exact ⟨e, by simp only [marshalValue, he]⟩
  | .map m, h => by
    simp only [holdsRejected] at h
    obtain ⟨e, he⟩ := marshalEntries_rejected m h
    exact ⟨e, by simp only [marshalValue, he]⟩
theorem marshalElems_rejected :
    ∀ xs : List Item, elemsHoldRejected xs = true → ∃ e, marshalElems xs = .error e
  | [], h => by simp [elemsHoldRejected] at h
  | x :: xs, h => by
    simp only [elemsHoldRejected, Bool.or_eq_true] at h
    cases hx : marshalValue x with
    | error e => exact ⟨e, by simp only [marshalElems, hx]⟩
    | ok a =>
      rcases h with h | h
      · obtain ⟨e, he⟩ := marshalValue_rejected x h
        rw [he] at hx
        cases hx
      · obtain ⟨e, he⟩ := marshalElems_rejected xs h
        exact ⟨e, by simp only [marshalElems, hx, he]⟩
theorem marshalEntries_rejected :
    ∀ m : List (String × Item), entriesHoldRejected m = true →
      ∃ e, marshalEntries m = .error e
  | [], h => by simp [entriesHoldRejected] at h
  | (k, x) :: m, h => by
    simp only [entriesHoldRejected, Bool.or_eq_true] at h
    cases hx : marshalValue x with
    | error e => exact ⟨e, by simp only [marshalEntries, hx]⟩
    | ok a =>
      rcases h with h | h
      · obtain ⟨e, he⟩ := marshalValue_rejected x h
        rw [he] at hx
        cases hx
      · obtain ⟨e, he⟩ := marshalEntries_rejected m h
        exact ⟨e, by simp only [marshalEntries, hx, he]⟩
end

theorem ReplaceAll_empty (old new : String) (h : old.data ≠ []) : ReplaceAll "" old new = "" := by
  simp only [ReplaceAll]
  split_ifs
  · rfl
  · rfl

/-- C17: a document that holds a value `json.Marshal` rejects, given directly or
as the result of a function, makes `specContentHandler` return the empty string,
and `GetScalarHTMLContent` return it with a nil error; and when the options
cannot be serialized, `safeJSONConfiguration` returns the empty string. -/
theorem serialization_failure_is_silent {σ : Type} (env : Env σ) (options : Options)
    (w : World σ) (m : Document) (e : GoError)
    (hm : entriesHoldRejected m = true) (he : env.marshalOptions options = .error e) :
    specContentHandler (.val (.map m)) = "" ∧
    (∀ f : Unit → Document, f () = m → specContentHandler (.func f) = "") ∧
    (GetScalarHTMLContent env { options with SpecContent := .val (.map m) } w).text = "" ∧
    (GetScalarHTMLContent env { options with SpecContent := .val (.map m) } w).err = none ∧
    (∀ f : Unit → Document, f () = m →
      (GetScalarHTMLContent env { options with SpecContent := .func f } w).text = "" ∧
      (GetScalarHTMLContent env { options with SpecContent := .func f } w).err = none) ∧
    safeJSONConfiguration env options = "" := by
  obtain ⟨err, herr⟩ := marshalValue_rejected (.map m) (by simpa [holdsRejected] using hm)
  have h1 : specContentHandler (.val (.map m)) = "" := by
    simp only [specContentHandler, Marshal, herr, marshalText]
  have h2 : ∀ f : Unit → Document, f () = m → specContentHandler (.func f) = "" := by
    intro f hf
    simp only [specContentHandler, hf, Marshal, herr, marshalText]
  refine ⟨h1, h2, ?_, ?_, ?_, ?_⟩
  · rw [GetScalarHTMLContent_nonnil env { options with SpecContent := .val (.map m) } w rfl]
    exact h1
  · rw [GetScalarHTMLContent_nonnil env { options with SpecContent := .val (.map m) } w rfl]
  · intro f hf
    rw [GetScalarHTMLContent_nonnil env { options with SpecContent := .func f } w rfl]
    exact ⟨h2 f hf, rfl⟩
  · simp only [safeJSONConfiguration, he, marshalText]
    exact ReplaceAll_empty _ _ (by decide)

theorem serialization_failure_is_silent_witness :
    specContentHandler (.val (.map [("events", .chan)])) = "" ∧
    (∀ f : Unit → Document, f () = [("events", .chan)] → specContentHandler (.func f) = "") ∧
    (GetScalarHTMLContent rejectingEnv
      { ({} : Options) with SpecContent := .val (.map [("events", .chan)]) } freshWorld).text
      = "" ∧
    (GetScalarHTMLContent rejectingEnv
      { ({} : Options) with SpecContent := .val (.map [("events", .chan)]) } freshWorld).err
      = none ∧
    (∀ f : Unit → Document, f () = [("events", .chan)] →
      (GetScalarHTMLContent rejectingEnv { ({} : Options) with SpecContent := .func f }
        freshWorld).text = "" ∧
      (GetScalarHTMLContent rejectingEnv { ({} : Options) with SpecContent := .func f }
        freshWorld).err = none) ∧
    safeJSONConfiguration rejectingEnv {} = "" :=
  serialization_failure_is_silent rejectingEnv {} freshWorld [("events", .chan)]
    ⟨"json: unsupported type: func() map[string]interface \x7b\x7d"⟩ rfl rfl

/-! ### Page assembly -/

theorem Any.eq_nil_of_isNil (c : Any) (h : c.isNil = true) : c = .val .nil := by
  cases c with
  | func f => simp [Any.isNil] at h
  | nilMap => simp [Any.isNil] at h
  | val v => cases v <;> simp [Any.isNil] at h ⊢

theorem GetScalarHTMLContent_frame {σ : Type} (env : Env σ) (options : Options) (w : World σ) :
    ∃ c, (GetScalarHTMLContent env options w).options = { options with SpecContent := c } := by
  cases hn : options.SpecContent.isNil with
  | false =>
    rw [GetScalarHTMLContent_nonnil env options w hn]
    exact ⟨options.SpecContent, rfl⟩
  | true =>
    have hnil := Any.eq_nil_of_isNil _ hn
    by_cases hurl : options.SpecURL = ""
    · rw [GetScalarHTMLContent_missing env options w hurl hnil]
      exact ⟨options.SpecContent, rfl⟩
    · cases hp : HasPrefix options.SpecURL "http" with
      | true =>
        cases he : (env.fetchContentFromURL options.SpecURL w.state).1 with
        | error e =>
          rw [GetScalarHTMLContent_fetch_error env options w hnil hurl hp e he]
          exact ⟨options.SpecContent, rfl⟩
        | ok c =>
          rw [GetScalarHTMLContent_fetch_ok env options w hnil hurl hp c he]
          exact ⟨_, rfl⟩
      | false =>
        cases he : (env.ensureFileURL options.SpecURL w.state).1 with
        | error e =>
          rw [GetScalarHTMLContent_ensure_error env options w hnil hurl hp e he]
          exact ⟨options.SpecContent, rfl⟩
        | ok urlPath =>
          cases hr : (env.readFileFromURL urlPath
              (env.ensureFileURL options.SpecURL w.state).2).1 with
          | error e =>
            rw [GetScalarHTMLContent_read_error env options w hnil hurl hp urlPath e he hr]
            exact ⟨options.SpecContent, rfl⟩
          | ok c =>
            rw [GetScalarHTMLContent_read_ok env options w hnil hurl hp urlPath c he hr]
            exact ⟨_, rfl⟩

theorem ApiReferenceHTML_err {σ : Type} (env : Env σ) (optionsInput : Options) (w : World σ) :
    (ApiReferenceHTML env optionsInput w).err
      = (GetScalarHTMLContent env (env.DefaultOptions optionsInput) w).err := by
  simp only [ApiReferenceHTML]
  cases h : (GetScalarHTMLContent env (env.DefaultOptions optionsInput) w).err <;> rfl

theorem ApiReferenceHTML_world {σ : Type} (env : Env σ) (optionsInput : Options) (w : World σ) :
    (ApiReferenceHTML env optionsInput w).world
      = (GetScalarHTMLContent env (env.DefaultOptions optionsInput) w).world := by
  simp only [ApiReferenceHTML]
  cases h : (GetScalarHTMLContent env (env.DefaultOptions optionsInput) w).err <;> rfl

theorem ApiReferenceHTML_optionsInput {σ : Type} (env : Env σ) (optionsInput : Options)
    (w : World σ) : (ApiReferenceHTML env optionsInput w).optionsInput = optionsInput := by
  simp only [ApiReferenceHTML]
  cases h : (GetScalarHTMLContent env (env.DefaultOptions optionsInput) w).err <;> rfl

theorem ApiReferenceHTML_success {σ : Type} (env : Env σ) (optionsInput : Options) (w : World σ)
    (hok : (ApiReferenceHTML env optionsInput w).err = none) :
    (ApiReferenceHTML env optionsInput w).html =
      "\n    <!DOCTYPE html>\n    <html>\n      <head>\n        <title>"
      ++ (if (env.DefaultOptions optionsInput).PageTitle ≠ ""
          then (env.DefaultOptions optionsInput).PageTitle else "Scalar API Reference")
      ++ "</title>\n        <meta charset=\"utf-8\" />\n        <meta name=\"viewport\" content=\"width=device-width, initial-scale=1\" />\n\t"
      ++ GetCustomCSS env (env.DefaultOptions optionsInput)
      ++ "\n      </head>\n      <body>\n\t"
      ++ GetScalarScriptWithHTMLContent
          (safeJSONConfiguration env
            (GetScalarHTMLContent env (env.DefaultOptions optionsInput) w).options)
          (GetScalarHTMLContent env (env.DefaultOptions optionsInput) w).text
      ++ "\n\t" ++ GetScalarCDN (env.DefaultOptions optionsInput)
      ++ "\n      </body>\n    </html>\n  " := by
  rw [ApiReferenceHTML_err] at hok
  obtain ⟨c, hc⟩ := GetScalarHTMLContent_frame env (env.DefaultOptions optionsInput) w
  simp only [ApiReferenceHTML, hok]
  rw [hc]
  rfl

/-- C16: on success the document `ApiReferenceHTML` returns is the fixed template
filled in this order: the page title inside `<title>`, the charset and viewport
meta tags, the stylesheet block `GetCustomCSS(options)` closing `<head>`, then in
`<body>` the configuration and spec script tag built from
`safeJSONConfiguration(options)` and the resolved spec text, and last the CDN
script tag `GetScalarCDN(options)`; `options` is the defaults-applied
configuration, in which resolution has changed at most `SpecContent`. -/
theorem document_structure {σ : Type} (env : Env σ) (optionsInput : Options) (w : World σ)
    (hok : (ApiReferenceHTML env optionsInput w).err = none) :
    (ApiReferenceHTML env optionsInput w).html =
      "\n    <!DOCTYPE html>\n    <html>\n      <head>\n        <title>"
      ++ (if (env.DefaultOptions optionsInput).PageTitle ≠ ""
          then (env.DefaultOptions optionsInput).PageTitle else "Scalar API Reference")
      ++ "</title>\n        <meta charset=\"utf-8\" />\n        <meta name=\"viewport\" content=\"width=device-width, initial-scale=1\" />\n\t"
      ++ GetCustomCSS env (env.DefaultOptions optionsInput)
      ++ "\n      </head>\n      <body>\n\t"
      ++ GetScalarScriptWithHTMLContent
          (safeJSONConfiguration env
            (GetScalarHTMLContent env (env.DefaultOptions optionsInput) w).options)
          (GetScalarHTMLContent env (env.DefaultOptions optionsInput) w).text
      ++ "\n\t" ++ GetScalarCDN (env.DefaultOptions optionsInput)
      ++ "\n      </body>\n    </html>\n  " ∧
    (∃ c, (GetScalarHTMLContent env (env.DefaultOptions optionsInput) w).options
      = { env.DefaultOptions optionsInput with SpecContent := c }) ∧
    ((env.DefaultOptions optionsInput).SpecContent.isNil = false →
      (GetScalarHTMLContent env (env.DefaultOptions optionsInput) w).options
        = env.DefaultOptions optionsInput) :=
  ⟨ApiReferenceHTML_success env optionsInput w hok,
    GetScalarHTMLContent_frame env (env.DefaultOptions optionsInput) w,
    fun h => by rw [GetScalarHTMLContent_nonnil env _ w h]⟩

theorem document_structure_witness :
    (ApiReferenceHTML sampleEnv minimalOptions freshWorld).html =
      "\n    <!DOCTYPE html>\n    <html>\n      <head>\n        <title>"
      ++ (if (sampleEnv.DefaultOptions minimalOptions).PageTitle ≠ ""
          then (sampleEnv.DefaultOptions minimalOptions).PageTitle else "Scalar API Reference")
      ++ "</title>\n        <meta charset=\"utf-8\" />\n        <meta name=\"viewport\" content=\"width=device-width, initial-scale=1\" />\n\t"
      ++ GetCustomCSS sampleEnv (sampleEnv.DefaultOptions minimalOptions)
      ++ "\n      </head>\n      <body>\n\t"
      ++ GetScalarScriptWithHTMLContent
          (safeJSONConfiguration sampleEnv
            (GetScalarHTMLContent sampleEnv (sampleEnv.DefaultOptions minimalOptions)
              freshWorld).options)
          (GetScalarHTMLContent sampleEnv (sampleEnv.DefaultOptions minimalOptions)
            freshWorld).text
      ++ "\n\t" ++ GetScalarCDN (sampleEnv.DefaultOptions minimalOptions)
      ++ "\n      </body>\n    </html>\n  " ∧
    (∃ c, (GetScalarHTMLContent sampleEnv (sampleEnv.DefaultOptions minimalOptions)
        freshWorld).options
      = { sampleEnv.DefaultOptions minimalOptions with SpecContent := c }) ∧
    ((sampleEnv.DefaultOptions minimalOptions).SpecContent.isNil = false →
      (GetScalarHTMLContent sampleEnv (sampleEnv.DefaultOptions minimalOptions)
        freshWorld).options
        = sampleEnv.DefaultOptions minimalOptions) :=
  document_structure sampleEnv minimalOptions freshWorld rfl

/-- C18: in a successful result the document opens with the fixed head up to
`<title>`, then holds the defaults-applied `PageTitle` as it is when that is
non-empty and "Scalar API Reference" when it is empty, then `</title>`. -/
theorem page_title {σ : Type} (env : Env σ) (optionsInput : Options) (w : World σ)
    (hok : (ApiReferenceHTML env optionsInput w).err = none) :
    ((env.DefaultOptions optionsInput).PageTitle ≠ "" →
      ∃ rest, (ApiReferenceHTML env optionsInput w).html
        = "\n    <!DOCTYPE html>\n    <html>\n      <head>\n        <title>"
          ++ (env.DefaultOptions optionsInput).PageTitle ++ "</title>" ++ rest) ∧
    ((env.DefaultOptions optionsInput).PageTitle = "" →
      ∃ rest, (ApiReferenceHTML env optionsInput w).html
        = "\n    <!DOCTYPE html>\n    <html>\n      <head>\n        <title>"
          ++ "Scalar API Reference" ++ "</title>" ++ rest) := by
  have hsplit : ("</title>\n        <meta charset=\"utf-8\" />\n        <meta name=\"viewport\" content=\"width=device-width, initial-scale=1\" />\n\t" : String)
      = "</title>" ++ "\n        <meta charset=\"utf-8\" />\n        <meta name=\"viewport\" content=\"width=device-width, initial-scale=1\" />\n\t" := by
    decide
  have h := ApiReferenceHTML_success env optionsInput w hok
  rw [hsplit] at h
  simp only [String.append_assoc] at h
  constructor
  · intro ht
    rw [if_pos ht] at h
    exact ⟨_, by rw [h]; simp only [String.append_assoc]; rfl⟩
  · intro ht
    rw [if_neg (fun hc => hc ht)] at h
    exact ⟨_, by rw [h]; simp only [String.append_assoc]; rfl⟩

theorem page_title_witness :
    ((sampleEnv.DefaultOptions { minimalOptions with PageTitle := "Pet Store" }).PageTitle ≠ "" →
      ∃ rest, (ApiReferenceHTML sampleEnv { minimalOptions with PageTitle := "Pet Store" }
          freshWorld).html
        = "\n    <!DOCTYPE html>\n    <html>\n      <head>\n        <title>"
          ++ (sampleEnv.DefaultOptions { minimalOptions with PageTitle := "Pet Store" }).PageTitle
          ++ "</title>" ++ rest) ∧
    ((sampleEnv.DefaultOptions { minimalOptions with PageTitle := "Pet Store" }).PageTitle = "" →
      ∃ rest, (ApiReferenceHTML sampleEnv { minimalOptions with PageTitle := "Pet Store" }
          freshWorld).html
        = "\n    <!DOCTYPE html>\n    <html>\n      <head>\n        <title>"
          ++ "Scalar API Reference" ++ "</title>" ++ rest) :=
  page_title sampleEnv { minimalOptions with PageTitle := "Pet Store" } freshWorld rfl

theorem resolution_calls {σ : Type} (env : Env σ) (options : Options) (w : World σ)
    (hnil : options.SpecContent = .val .nil) (hurl : options.SpecURL ≠ "") :
    (HasPrefix options.SpecURL "http" = true →
      (GetScalarHTMLContent env options w).world.calls
        = w.calls ++ [Call.fetchContentFromURL options.SpecURL]) ∧
    (HasPrefix options.SpecURL "http" = false →
      ∃ l, (GetScalarHTMLContent env options w).world.calls
        = w.calls ++ Call.ensureFileURL options.SpecURL :: l) := by
  refine ⟨fun hp => ?_, fun hp => ?_⟩
  · cases he : (env.fetchContentFromURL options.SpecURL w.state).1 with
    | error e => rw [GetScalarHTMLContent_fetch_error env options w hnil hurl hp e he]
    | ok c => rw [GetScalarHTMLContent_fetch_ok env options w hnil hurl hp c he]
  · cases he : (env.ensureFileURL options.SpecURL w.state).1 with
    | error e =>
      rw [GetScalarHTMLContent_ensure_error env options w hnil hurl hp e he]
      exact ⟨[], rfl⟩
    | ok urlPath =>
      cases hr : (env.readFileFromURL urlPath (env.ensureFileURL options.SpecURL w.state).2).1 with
      | error e =>
        rw [GetScalarHTMLContent_read_error env options w hnil hurl hp urlPath e he hr]
        exact ⟨[Call.readFileFromURL urlPath], by simp⟩
      | ok c =>
        rw [GetScalarHTMLContent_read_ok env options w hnil hurl hp urlPath c he hr]
        exact ⟨[Call.readFileFromURL urlPath], by simp⟩

/-- C19: `ApiReferenceHTML` leaves the caller's configuration as it was, after a
successful and after a failed call alike, since the spec is resolved on the copy
`DefaultOptions(*optionsInput)`.  So when the caller's `SpecContent` is nil, its
`SpecURL` non-empty and the defaults leave both alone, nothing is cached for the
caller: a second render of the same input calls the collaborators again (the
fetcher again for a source beginning with "http", `ensureFileURL` again
otherwise). -/
theorem caller_options_untouched {σ : Type} (env : Env σ) (optionsInput : Options)
    (w : World σ) :
    (ApiReferenceHTML env optionsInput w).optionsInput = optionsInput ∧
    (optionsInput.SpecContent = .val .nil → optionsInput.SpecURL ≠ "" →
      (env.DefaultOptions optionsInput).SpecURL = optionsInput.SpecURL →
      (env.DefaultOptions optionsInput).SpecContent = optionsInput.SpecContent →
      (HasPrefix optionsInput.SpecURL "http" = true →
        (ApiReferenceHTML env (ApiReferenceHTML env optionsInput w).optionsInput
            (ApiReferenceHTML env optionsInput w).world).world.calls
          = w.calls ++ [Call.fetchContentFromURL optionsInput.SpecURL,
              Call.fetchContentFromURL optionsInput.SpecURL]) ∧
      (HasPrefix optionsInput.SpecURL "http" = false →
        ∃ l1 l2,
          (ApiReferenceHTML env optionsInput w).world.calls
            = w.calls ++ Call.ensureFileURL optionsInput.SpecURL :: l1 ∧
          (ApiReferenceHTML env (ApiReferenceHTML env optionsInput w).optionsInput
              (ApiReferenceHTML env optionsInput w).world).world.calls
            = (ApiReferenceHTML env optionsInput w).world.calls
              ++ Call.ensureFileURL optionsInput.SpecURL :: l2)) := by
  refine ⟨ApiReferenceHTML_optionsInput env optionsInput w, ?_⟩
  intro hnil hurl hd1 hd2
  have hnil2 : (env.DefaultOptions optionsInput).SpecContent = .val .nil := hd2.trans hnil
  have hurl2 : (env.DefaultOptions optionsInput).SpecURL ≠ "" := by rw [hd1]; exact hurl
  rw [ApiReferenceHTML_optionsInput, ApiReferenceHTML_world, ApiReferenceHTML_world]
  constructor
  · intro hp
    have hp2 : HasPrefix (env.DefaultOptions optionsInput).SpecURL "http" = true := by
      rw [hd1]; exact hp
    rw [(resolution_calls env _ _ hnil2 hurl2).1 hp2, (resolution_calls env _ w hnil2 hurl2).1 hp2,
      hd1]
    simp
  · intro hp
    have hp2 : HasPrefix (env.DefaultOptions optionsInput).SpecURL "http" = false := by
      rw [hd1]; exact hp
    obtain ⟨l1, h1⟩ := (resolution_calls env _ w hnil2 hurl2).2 hp2
    obtain ⟨l2, h2⟩ := (resolution_calls env _
      (GetScalarHTMLContent env (env.DefaultOptions optionsInput) w).world hnil2 hurl2).2 hp2
    rw [hd1] at h1 h2
    exact ⟨l1, l2, h1, h2⟩

theorem caller_options_untouched_witness :
    (ApiReferenceHTML sampleEnv { SpecURL := "https://example.com/openapi.json" }
      freshWorld).optionsInput.SpecContent = .val .nil ∧
    (ApiReferenceHTML sampleEnv
        (ApiReferenceHTML sampleEnv { SpecURL := "https://example.com/openapi.json" }
          freshWorld).optionsInput
        (ApiReferenceHTML sampleEnv { SpecURL := "https://example.com/openapi.json" }
          freshWorld).world).world.calls
      = freshWorld.calls ++ [Call.fetchContentFromURL "https://example.com/openapi.json",
          Call.fetchContentFromURL "https://example.com/openapi.json"] :=
  ⟨congrArg Options.SpecContent
      (caller_options_untouched sampleEnv { SpecURL := "https://example.com/openapi.json" }
        freshWorld).1,
    ((caller_options_untouched sampleEnv { SpecURL := "https://example.com/openapi.json" }
        freshWorld).2 rfl (by decide) rfl rfl).1 (by decide)⟩

/-! ### Undoing the quote escaping -/

theorem isPrefixOf_entities (P : List Char) (hP : '&' ∉ P) :
    ∀ cs : List Char, P.isPrefixOf (quotesToEntities ⟨cs⟩).data = true → P.isPrefixOf cs = true := by
  induction P with
  | nil => intro cs _; simp
  | cons p ps ih =>
    intro cs h
    have hp : p ≠ '&' := fun hc => hP (by rw [hc]; exact List.mem_cons_self _ _)
    have hps : '&' ∉ ps := fun hc => hP (List.mem_cons_of_mem _ hc)
    cases cs with
    | nil => simp [quotesToEntities] at h
    | cons d ds =>
      by_cases hd : d = '"'
      · subst hd
        simp [quotesToEntities, hp] at h
      · simp only [quotesToEntities, List.flatMap_cons, if_neg hd, List.singleton_append,
          List.isPrefixOf, Bool.and_eq_true] at h
        simp only [List.isPrefixOf, Bool.and_eq_true]
        exact ⟨h.1, ih hps ds h.2⟩

theorem replaceAllChars_entities :
    ∀ cs : List Char, countOccurrences ['&', 'q', 'u', 'o', 't', ';'] cs = 0 →
      replaceAllChars ['&', 'q', 'u', 'o', 't', ';'] ['"'] 0 (quotesToEntities ⟨cs⟩).data = cs := by
  intro cs
  induction cs with
  | nil => intro _; rfl
  | cons c cs ih =>
    intro h
    simp only [countOccurrences, Nat.add_eq_zero] at h
    obtain ⟨h1, h2⟩ := h
    have hnp : ['&', 'q', 'u', 'o', 't', ';'].isPrefixOf (c :: cs) = false := by
      by_contra hc
      simp only [Bool.not_eq_false] at hc
      rw [if_pos hc] at h1
      exact absurd h1 (by decide)
    have ih2 := ih h2
    simp only [quotesToEntities] at ih2 ⊢
    by_cases hq : c = '"'
    · subst hq
      simp only [List.flatMap_cons, if_true, List.cons_append, List.nil_append, replaceAllChars,
        List.isPrefixOf, beq_self_eq_true, Bool.true_and, if_true, List.length_cons,
        List.length_nil]
      exact congrArg (List.cons '"') ih2
    · have hnp2 : ['&', 'q', 'u', 'o', 't', ';'].isPrefixOf
          (c :: cs.flatMap fun c => if c = '"' then ['&', 'q', 'u', 'o', 't', ';'] else [c])
          = false := by
        by_contra hc
        simp only [Bool.not_eq_false] at hc
        rw [List.isPrefixOf, Bool.and_eq_true] at hc
        have := isPrefixOf_entities ['q', 'u', 'o', 't', ';'] (by decide) cs hc.2
        rw [List.isPrefixOf, hc.1, this] at hnp
        exact absurd hnp (by decide)
      simp only [List.flatMap_cons, if_neg hq, List.singleton_append, replaceAllChars, hnp2,
        ih2]
      rfl

theorem ReplaceAll_entity (s : String) :
    ReplaceAll s "&quot;" "\"" = ⟨replaceAllChars ['&', 'q', 'u', 'o', 't', ';'] ['"'] 0 s.data⟩ := by
  have h1 : ("&quot;" : String) ≠ "\"" := by decide
  have h2 : ("&quot;" : String).data ≠ [] := by decide
  simp only [ReplaceAll, if_neg h1, if_neg h2]

theorem unescape_escape (j : String) (hj : occurrences j "&quot;" = 0) :
    ReplaceAll (ReplaceAll j "\"" "&quot;") "&quot;" "\"" = j := by
  rw [ReplaceAll_quote, ReplaceAll_entity]
  have h := replaceAllChars_entities j.data hj
  exact congrArg String.mk h

/-- C20: for a JSON text `j` without the substring `&quot;`, replacing every
`&quot;` by a double quote in the escaped text gives back `j`; so two such texts
with the same escaped form are equal, and un-escaping what
`safeJSONConfiguration` returns gives back the JSON text of the options. -/
theorem quote_escaping_lossless (j : String) (hj : occurrences j "&quot;" = 0) :
    ReplaceAll (ReplaceAll j "\"" "&quot;") "&quot;" "\"" = j ∧
    (∀ j2 : String, occurrences j2 "&quot;" = 0 →
      ReplaceAll j "\"" "&quot;" = ReplaceAll j2 "\"" "&quot;" → j = j2) ∧
    (∀ (σ : Type) (env : Env σ) (options : Options),
      marshalText (env.marshalOptions options) = j →
      ReplaceAll (safeJSONConfiguration env options) "&quot;" "\"" = j) := by
  refine ⟨unescape_escape j hj, ?_, ?_⟩
  · intro j2 hj2 heq
    rw [← unescape_escape j hj, ← unescape_escape j2 hj2, heq]
  · intro σ env options hm
    simp only [safeJSONConfiguration, hm]
    exact unescape_escape j hj

theorem quote_escaping_lossless_witness :
    ReplaceAll (ReplaceAll "\x7b\"cdn\":\"a&b\"\x7d" "\"" "&quot;") "&quot;" "\""
      = "\x7b\"cdn\":\"a&b\"\x7d" ∧
    (∀ j2 : String, occurrences j2 "&quot;" = 0 →
      ReplaceAll "\x7b\"cdn\":\"a&b\"\x7d" "\"" "&quot;" = ReplaceAll j2 "\"" "&quot;" →
      "\x7b\"cdn\":\"a&b\"\x7d" = j2) ∧
    (∀ (σ : Type) (env : Env σ) (options : Options),
      marshalText (env.marshalOptions options) = "\x7b\"cdn\":\"a&b\"\x7d" →
      ReplaceAll (safeJSONConfiguration env options) "&quot;" "\""
        = "\x7b\"cdn\":\"a&b\"\x7d") :=
  quote_escaping_lossless "\x7b\"cdn\":\"a&b\"\x7d" (by decide)

/-! ### The minimal document -/

theorem isPrefixOf_append_sep (sep : Char) (b : List Char) :
    ∀ (pat : List Char), sep ∉ pat → ∀ x : List Char,
      pat.isPrefixOf (x ++ sep :: b) = pat.isPrefixOf x := by
  intro pat
  induction pat with
  | nil => intro _ x; simp
  | cons p ps ih =>
    intro hsep x
    have hp : p ≠ sep := fun hc => hsep (by rw [hc]; exact List.mem_cons_self _ _)
    have hps : sep ∉ ps := fun hc => hsep (List.mem_cons_of_mem _ hc)
    cases x with
    | nil => simp [List.isPrefixOf, hp]
    | cons y ys =>
      show (p == y && ps.isPrefixOf (ys ++ sep :: b)) = (p == y && ps.isPrefixOf ys)
      rw [ih hps ys]

theorem countOccurrences_append_sep (pat : List Char) (sep : Char) (hpat : pat ≠ [])
    (hsep : sep ∉ pat) (a b : List Char) :
    countOccurrences pat (a ++ sep :: b) = countOccurrences pat a + countOccurrences pat b := by
  induction a with
  | nil =>
    have h := isPrefixOf_append_sep sep b pat hsep []
    simp only [List.nil_append] at h
    cases pat with
    | nil => exact absurd rfl hpat
    | cons p ps =>
      have h2 : (p :: ps).isPrefixOf (sep :: b) = false := h.trans rfl
      simp only [List.nil_append, countOccurrences, h2]
      simp
  | cons c cs ih =>
    have h := isPrefixOf_append_sep sep b pat hsep (c :: cs)
    show (if pat.isPrefixOf (c :: cs ++ sep :: b) = true then 1 else 0)
        + countOccurrences pat (cs ++ sep :: b)
      = ((if pat.isPrefixOf (c :: cs) = true then 1 else 0) + countOccurrences pat cs)
        + countOccurrences pat b
    rw [h, ih]
    omega

theorem countOccurrences_append (pat : List Char) (sep : Char) (hpat : pat ≠ [])
    (hsep : sep ∉ pat) (a b : List Char)
    (h : a.getLast? = some sep ∨ b.head? = some sep) :
    countOccurrences pat (a ++ b) = countOccurrences pat a + countOccurrences pat b := by
  have hnil : countOccurrences pat [] = 0 := by simp [countOccurrences, hpat]
  rcases h with h | h
  · have ha : a.dropLast ++ [sep] = a := List.dropLast_append_getLast? sep (by simp [h])
    have h1 := countOccurrences_append_sep pat sep hpat hsep a.dropLast b
    have h2 := countOccurrences_append_sep pat sep hpat hsep a.dropLast []
    rw [ha, hnil] at h2
    rw [← ha, List.append_assoc, List.singleton_append, h1, ha, h2]
    omega
  · cases b with
    | nil => simp at h
    | cons d ds =>
      simp only [List.head?_cons, Option.some.injEq] at h
      subst h
      have h1 := countOccurrences_append_sep pat d hpat hsep a ds
      have h2 := countOccurrences_append_sep pat d hpat hsep [] ds
      rw [List.nil_append, hnil] at h2
      rw [h1, h2]
      omega

theorem HasSuffix_append (a b : String) : HasSuffix (a ++ b) b = true := by
  simp [HasSuffix, String.data_append, List.reverse_append]

theorem countOccurrences_split (pat a b : List Char) (hpat : pat ≠ [])
    (h : (∃ s, a.getLast? = some s ∧ s ∉ pat) ∨ (∃ s, b.head? = some s ∧ s ∉ pat)) :
    countOccurrences pat (a ++ b) = countOccurrences pat a + countOccurrences pat b := by
  rcases h with ⟨s, h1, h2⟩ | ⟨s, h1, h2⟩
  · exact countOccurrences_append pat s hpat h2 a b (Or.inl h1)
  · exact countOccurrences_append pat s hpat h2 a b (Or.inr h1)

theorem head?_append_outside (pat a b : List Char) (h : ∃ s, a.head? = some s ∧ s ∉ pat) :
    ∃ s, (a ++ b).head? = some s ∧ s ∉ pat := by
  obtain ⟨s, h1, h2⟩ := h
  cases a with
  | nil => simp at h1
  | cons c cs => exact ⟨s, by simpa using h1, h2⟩

theorem countOccurrences_document (pat : List Char) (hpat : pat ≠ [])
    (T0 title T1 css T2 S0 cfg S1 spec S2 NT C0 cdn C1 T3 : List Char)
    (eT0 : ∃ s, T0.getLast? = some s ∧ s ∉ pat)
    (bT1 : ∃ s, T1.head? = some s ∧ s ∉ pat) (eT1 : ∃ s, T1.getLast? = some s ∧ s ∉ pat)
    (bT2 : ∃ s, T2.head? = some s ∧ s ∉ pat) (eT2 : ∃ s, T2.getLast? = some s ∧ s ∉ pat)
    (eS0 : ∃ s, S0.getLast? = some s ∧ s ∉ pat)
    (bS1 : ∃ s, S1.head? = some s ∧ s ∉ pat) (eS1 : ∃ s, S1.getLast? = some s ∧ s ∉ pat)
    (bS2 : ∃ s, S2.head? = some s ∧ s ∉ pat) (eS2 : ∃ s, S2.getLast? = some s ∧ s ∉ pat)
    (eNT : ∃ s, NT.getLast? = some s ∧ s ∉ pat)
    (eC0 : ∃ s, C0.getLast? = some s ∧ s ∉ pat)
    (bC1 : ∃ s, C1.head? = some s ∧ s ∉ pat) (eC1 : ∃ s, C1.getLast? = some s ∧ s ∉ pat) :
    countOccurrences pat
      (T0 ++ (title ++ (T1 ++ (css ++ (T2 ++ (S0 ++ (cfg ++ (S1 ++ (spec ++ (S2 ++ (NT ++
        (C0 ++ (cdn ++ (C1 ++ T3))))))))))))))
      = countOccurrences pat T0 + (countOccurrences pat title + (countOccurrences pat T1
        + (countOccurrences pat css + (countOccurrences pat T2 + (countOccurrences pat S0
        + (countOccurrences pat cfg + (countOccurrences pat S1 + (countOccurrences pat spec
        + (countOccurrences pat S2 + (countOccurrences pat NT + (countOccurrences pat C0
        + (countOccurrences pat cdn + (countOccurrences pat C1
        + countOccurrences pat T3))))))))))))) := by
  rw [countOccurrences_split pat T0 _ hpat (Or.inl eT0),
    countOccurrences_split pat title _ hpat (Or.inr (head?_append_outside pat _ _ bT1)),
    countOccurrences_split pat T1 _ hpat (Or.inl eT1),
    countOccurrences_split pat css _ hpat (Or.inr (head?_append_outside pat _ _ bT2)),
    countOccurrences_split pat T2 _ hpat (Or.inl eT2),
    countOccurrences_split pat S0 _ hpat (Or.inl eS0),
    countOccurrences_split pat cfg _ hpat (Or.inr (head?_append_outside pat _ _ bS1)),
    countOccurrences_split pat S1 _ hpat (Or.inl eS1),
    countOccurrences_split pat spec _ hpat (Or.inr (head?_append_outside pat _ _ bS2)),
    countOccurrences_split pat S2 _ hpat (Or.inl eS2),
    countOccurrences_split pat NT _ hpat (Or.inl eNT),
    countOccurrences_split pat C0 _ hpat (Or.inl eC0),
    countOccurrences_split pat cdn _ hpat (Or.inr (head?_append_outside pat _ _ bC1)),
    countOccurrences_split pat C1 _ hpat (Or.inl eC1)]

set_option maxRecDepth 100000

/-- C15 as stated fails: the document for the minimal configuration does not end
with `</html>`; the template goes on with a newline and two spaces. -/
theorem minimal_document_suffix_counterexample :
    (ApiReferenceHTML sampleEnv minimalOptions freshWorld).err = none ∧
    HasSuffix (ApiReferenceHTML sampleEnv minimalOptions freshWorld).html "</html>" = false := by
  decide

/-- C15, amended: for the minimal configuration (spec content "x", nothing else
set), whose defaults keep the spec content and bring no `data-configuration=`
into the title, the stylesheet block, the serialized configuration or the CDN
URL, `ApiReferenceHTML` succeeds, the document holds exactly one occurrence of
`data-configuration=`, and it ends with `</html>` followed by a newline and two
spaces. -/
theorem minimal_document {σ : Type} (env : Env σ) (w : World σ)
    (hspec : (env.DefaultOptions minimalOptions).SpecContent = .val (.str "x"))
    (htitle : occurrences (env.DefaultOptions minimalOptions).PageTitle "data-configuration=" = 0)
    (hcss : occurrences (GetCustomCSS env (env.DefaultOptions minimalOptions))
      "data-configuration=" = 0)
    (hcfg : occurrences (safeJSONConfiguration env (env.DefaultOptions minimalOptions))
      "data-configuration=" = 0)
    (hcdn : occurrences (env.DefaultOptions minimalOptions).CDN "data-configuration=" = 0) :
    (ApiReferenceHTML env minimalOptions w).err = none ∧
    occurrences (ApiReferenceHTML env minimalOptions w).html "data-configuration=" = 1 ∧
    HasSuffix (ApiReferenceHTML env minimalOptions w).html "</html>\n  " = true := by
  have hn : (env.DefaultOptions minimalOptions).SpecContent.isNil = false := by
    rw [hspec]; rfl
  have hG := GetScalarHTMLContent_nonnil env (env.DefaultOptions minimalOptions) w hn
  have hok : (ApiReferenceHTML env minimalOptions w).err = none := by
    rw [ApiReferenceHTML_err, hG]
  have hhtml := ApiReferenceHTML_success env minimalOptions w hok
  rw [hG] at hhtml
  simp only [hspec, specContentHandler] at hhtml
  refine ⟨hok, ?_, ?_⟩
  · have htitle2 : occurrences
        (if (env.DefaultOptions minimalOptions).PageTitle ≠ ""
          then (env.DefaultOptions minimalOptions).PageTitle else "Scalar API Reference")
        "data-configuration=" = 0 := by
      split_ifs
      · exact htitle
      · decide
    have hpat : ("data-configuration=" : String).data ≠ [] := by decide
    simp only [occurrences] at htitle2 hcss hcfg hcdn ⊢
    rw [hhtml]
    simp only [GetScalarScriptWithHTMLContent, GetScalarCDN, String.data_append,
      List.append_assoc]
    rw [countOccurrences_document _ hpat _ _ _ _ _ _ _ _ _ _ _ _ _ _ _
      ⟨'>', by decide, by decide⟩
      ⟨'<', by decide, by decide⟩ ⟨'\t', by decide, by decide⟩
      ⟨'\n', by decide, by decide⟩ ⟨'\t', by decide, by decide⟩
      ⟨'"', by decide, by decide⟩
      ⟨'"', by decide, by decide⟩ ⟨'>', by decide, by decide⟩
      ⟨'<', by decide, by decide⟩ ⟨'>', by decide, by decide⟩
      ⟨'\t', by decide, by decide⟩
      ⟨'"', by decide, by decide⟩
      ⟨'"', by decide, by decide⟩ ⟨'>', by decide, by decide⟩]
    rw [htitle2, hcss, hcfg, hcdn]
    decide
  · rw [hhtml]
    have hsplit : ("\n      </body>\n    </html>\n  " : String)
        = "\n      </body>\n    " ++ "</html>\n  " := by decide
    rw [hsplit, ← String.append_assoc]
    exact HasSuffix_append _ _

theorem minimal_document_witness :
    (ApiReferenceHTML sampleEnv minimalOptions freshWorld).err = none ∧
    occurrences (ApiReferenceHTML sampleEnv minimalOptions freshWorld).html
      "data-configuration=" = 1 ∧
    HasSuffix (ApiReferenceHTML sampleEnv minimalOptions freshWorld).html "</html>\n  " = true :=
  minimal_document sampleEnv freshWorld rfl (by decide) (by decide) (by decide) (by decide)

end Scalar
